import Mathlib

/-!
Verification of the `exrs` core read/write engine against its specification.

The development shallowly embeds the two source files of the repository,
`src/compression/piz/huffman.rs` and `src/image/mod.rs`, as executable Lean
definitions and settles the specification claims about them.

Conventions of the embedding:
* machine integers (`usize`, `u32`, `i64`) are modelled as `Nat`;
  all values reached by the embedded code paths are non-negative and far from
  the 64-bit overflow boundary, and every deviation is noted at the definition.
* bytes are `Nat` values; the source reads them as `u8`, so they are `< 256`
  in every real execution.
* fallible Rust code (`IoResult`) is modelled with an explicit result type
  `RResult` that distinguishes a returned `Err` from a Rust panic
  (`unimplemented!()`, `.expect(..)`), because some claims are precisely about
  the difference between the two.
-/

/-- The `std::io::ErrorKind` values used by the huffman module. -/
inductive ErrKind where
  | unexpectedEof
  | invalidData
  deriving DecidableEq, Repr

/-- Result of running a piece of Rust code: a value, a returned error
(`Err(std::io::Error::new(kind, msg))`), or a panic. -/
inductive RResult (α : Type) where
  | ok (value : α)
  | err (kind : ErrKind) (msg : String)
  | panic (msg : String)
  deriving DecidableEq, Repr

namespace RResult

def bind {α β : Type} : RResult α → (α → RResult β) → RResult β
  | ok v, f => f v
  | err k m, _ => err k m
  | panic m, _ => panic m

instance : Monad RResult where
  pure := ok
  bind := bind

end RResult

namespace huffman

/-- `const ENCODE_BITS: usize = 16;` (literal (value) bit length). -/
def ENCODE_BITS : Nat := 16

/-- `const DECODE_BITS: usize = 14;` (decoding bit size). -/
def DECODE_BITS : Nat := 14

/-- `const ENCODE_SIZE: usize = (1 << ENCODE_BITS) + 1;` (encoding table size). -/
def ENCODE_SIZE : Nat := (1 <<< ENCODE_BITS) + 1

/-- `const DECODE_SIZE: usize = 1 << DECODE_BITS;` (decoding table size). -/
def DECODE_SIZE : Nat := 1 <<< DECODE_BITS

/-- `const DECODE_MASK: usize = DECODE_SIZE - 1;` -/
def DECODE_MASK : Nat := DECODE_SIZE - 1

/-- `const SHORT_ZEROCODE_RUN: i64 = 59;` -/
def SHORT_ZEROCODE_RUN : Nat := 59

/-- `const LONG_ZEROCODE_RUN: i64 = 63;` -/
def LONG_ZEROCODE_RUN : Nat := 63

/-- `const SHORTEST_LONG_RUN: i64 = 2 + LONG_ZEROCODE_RUN - SHORT_ZEROCODE_RUN;` -/
def SHORTEST_LONG_RUN : Nat := 2 + LONG_ZEROCODE_RUN - SHORT_ZEROCODE_RUN

/-- `const LONGEST_LONG_RUN: i64 = 255 + SHORTEST_LONG_RUN;` -/
def LONGEST_LONG_RUN : Nat := 255 + SHORTEST_LONG_RUN

/-- `fn length(code: i64) -> i64 { code & 63 }` -/
def length (code : Nat) : Nat := code &&& 63

/-- `fn code(code: i64) -> i64 { code >> 6 }` -/
def code (c : Nat) : Nat := c >>> 6

/-- `fn read_bits(count, c, lc, read) -> i64` from `huffman.rs`.

The source loops `while lc < count`, pulling one byte at a time with
`u8::read(&mut read).expect("huffman read err")`: on an exhausted input it
PANICS (`expect`), it does not return an error.  The accumulator update
`*c = (*c << 8) | byte` equals `c * 256 + byte` for the byte range; `c` and
`lc` are `i64` in the source but never become negative (we do not model the
eventual `i64` overflow of the accumulator).  The result is
`(c >> lc) & ((1 << count) - 1)` together with the updated accumulator state
and the unconsumed input. -/
def read_bits (count : Nat) (c lc : Nat) (input : List Nat) :
    RResult (Nat × Nat × Nat × List Nat) :=
  if _h : lc < count then
    match input with
    | [] => .panic "huffman read err"
    | byte :: rest => read_bits count (c * 256 + byte) (lc + 8) rest
  else
    .ok ((c >>> (lc - count)) &&& ((1 <<< count) - 1), c, lc - count, input)
  termination_by count - lc
  decreasing_by omega

/-- One step of the counting pass of `canonical_table`:
`n[code as usize] += 1`.  The source indexes the 59-entry array `n` directly
and would panic for a length outside `0..=58`; `List.set` is a no-op there
instead, and every claim below stays inside the panic-free domain. -/
def bumpAt (n : List Nat) (x : Nat) : List Nat :=
  n.set x (n.getD x 0 + 1)

/-- The descending sweep of `canonical_table`:
`let mut c = 0; for n in &mut n.iter_mut().rev() { let nc = (c + *n) >> 1; *n = c; c = nc; }`.
Processing the list from its last element to its first, each entry is replaced
by the incoming value of `c` and `c` becomes `(c + old) >> 1`.  Returns the
rewritten list and the final `c`. -/
def sweepList : List Nat → List Nat × Nat
  | [] => ([], 0)
  | x :: xs =>
    let r := sweepList xs
    (r.2 :: r.1, (r.2 + x) >>> 1)

/-- The assignment pass of `canonical_table`:
`for code_i in h_code.iter_mut() { let l = *code_i; if l > 0 { *code_i = l | (n[l] << 6); n[l] += 1; } }`.
As with the counting pass, an entry `l > 58` would panic in the source. -/
def assignCodes : List Nat → List Nat → List Nat
  | [], _ => []
  | l :: rest, n =>
    if 0 < l then (l ||| (n.getD l 0 <<< 6)) :: assignCodes rest (bumpAt n l)
    else l :: assignCodes rest n

/-- `fn canonical_table(h_code: &mut [i64])` from `huffman.rs`.

Counts code lengths into `n : [i64; 59]`, sweeps `n` from index 58 down to 0
(the C++ original stops at 1; the Rust `rev()` loop also visits index 0, which
is unobservable because entries of length 0 are never assigned a code), then
packs `l | (n[l]++ << 6)` into every entry with positive length. -/
def canonical_table (h_code : List Nat) : List Nat :=
  let n := h_code.foldl bumpAt (List.replicate 59 0)
  let n := (sweepList n).1
  assignCodes h_code n

/-- The Kraft weight of a table of code lengths: `Σ over symbols with
positive length of 2^(58 - length)`, with `58` the maximum code length of the
format.  A table is a complete prefix code exactly when this equals `2^58`
(`Σ 2^(-l) = 1`); the tables produced by the encoder's Huffman tree are
complete. -/
def kraft : List Nat → Nat
  | [] => 0
  | x :: xs => (if 0 < x then 2 ^ (58 - x) else 0) + kraft xs

/-- The weighted sum `Σ_j m[j] · 2^(m.length - 1 - j)` of a suffix of the
length-count array `n`; for `m = n.drop (k+1)` this is
`Σ_{l > k} count(l) · 2^(58 - l)`, the tail Kraft weight below level `k`. -/
def wsum : List Nat → Nat
  | [] => 0
  | x :: xs => x * 2 ^ xs.length + wsum xs

/-- The maximum code length appearing in a table of code lengths. -/
def maxCodeLen (table : List Nat) : Nat := table.foldr max 0

/-- `pub fn compress(_uncompressed: &[u16], _result: &mut [u8]) -> IoResult<()> { unimplemented!() }`
The body is a single `unimplemented!()` macro call, which panics. -/
def compress (_uncompressed : List Nat) (_result_len : Nat) : RResult Unit :=
  .panic "not implemented"

/-- `u32::read` on the remaining byte stream (the `crate::io::Data` trait is
not part of the sources under `src/`).  Modelled from the spec: the chunk
header fields are little-endian unsigned 32-bit values read one after another,
and a truncated read fails with an `UnexpectedEof` io error. -/
def readU32 : List Nat → RResult (Nat × List Nat)
  | b0 :: b1 :: b2 :: b3 :: rest =>
      .ok (b0 + 256 * b1 + 65536 * b2 + 16777216 * b3, rest)
  | _ => .err .unexpectedEof "failed to fill whole buffer"

/-- One iteration body of the `while min_hcode_index <= max_hcode_index` loop
of `unpack_encoding_table`, given as the whole loop with an explicit fuel
(the loop terminates because `min_hcode_index` strictly increases; the fuel
used by `unpack_encoding_table` below is an upper bound on the remaining
iterations).  State: current `min_hcode_index`, bit accumulator `c`/`lc`,
remaining input bytes, and the encoding table being filled.

The source stores the raw 6-bit value into the table first
(`encoding_table[code_index] = code_len`, where `code_index` is the loop
index `min_hcode_index`; the identifier `code_index` is a leftover of the
commented-out `for` loop immediately above it), then interprets zero-run
escapes, overwriting the slot again as the start of the zero run. -/
def unpackLoop (max_hcode_index : Nat) :
    Nat → Nat → Nat → Nat → List Nat → List Nat → RResult (List Nat × List Nat)
  | 0, _, _, _, remaining, table => .ok (table, remaining)
  | fuel + 1, min_hcode_index, c, lc, remaining, table =>
    if min_hcode_index ≤ max_hcode_index then
      if remaining.length < 1 then .err .invalidData "huffman table length"
      else
        match read_bits 6 c lc remaining with
        | .panic m => .panic m
        | .err k m => .err k m
        | .ok (code_len, c, lc, remaining) =>
          let table := table.set min_hcode_index code_len
          if code_len = LONG_ZEROCODE_RUN then
            if remaining.length < 1 then .err .invalidData "huffman table length"
            else
              match read_bits 8 c lc remaining with
              | .panic m => .panic m
              | .err k m => .err k m
              | .ok (bits, c, lc, remaining) =>
                let zerun := bits + SHORTEST_LONG_RUN
                if min_hcode_index + zerun > max_hcode_index + 1 then
                  .err .invalidData "huffman table length"
                else
                  let table := zeroRange table min_hcode_index zerun
                  unpackLoop max_hcode_index fuel (min_hcode_index + zerun) c lc remaining table
          else if SHORT_ZEROCODE_RUN ≤ code_len then
            let zerun := code_len - SHORT_ZEROCODE_RUN + 2
            if min_hcode_index + zerun > max_hcode_index + 1 then
              .err .invalidData "huffman table length"
            else
              let table := zeroRange table min_hcode_index zerun
              unpackLoop max_hcode_index fuel (min_hcode_index + zerun) c lc remaining table
          else
            unpackLoop max_hcode_index fuel (min_hcode_index + 1) c lc remaining table
    else .ok (table, remaining)
where
  /-- `for value in &mut encoding_table[min .. min + zerun] { *value = 0; }` -/
  zeroRange (table : List Nat) (start len : Nat) : List Nat :=
    (List.range len).foldl (fun t i => t.set (start + i) 0) table

/-- `fn unpack_encoding_table(packed, min_hcode_index, max_hcode_index, encoding_table)`
from `huffman.rs`: run-length-decompresses the packed code lengths into the
encoding table between the two indices, then canonicalizes the table.
Returns the canonicalized table and the unconsumed bytes. -/
def unpack_encoding_table (packed : List Nat) (min_hcode_index max_hcode_index : Nat)
    (encoding_table : List Nat) : RResult (List Nat × List Nat) :=
  match unpackLoop max_hcode_index (max_hcode_index + 1 - min_hcode_index)
      min_hcode_index 0 0 packed encoding_table with
  | .panic m => .panic m
  | .err k m => .err k m
  | .ok (table, remaining) => .ok (canonical_table table, remaining)

/-- `pub fn decompress(compressed: &[u8], result: &mut [u16]) -> IoResult<()>`
from `huffman.rs`, embedded line by line:

1. `if compressed.len() < 20 && !result.is_empty() { return Err(UnexpectedEof, "invalid huffman input") }`
   — note there is no early `Ok` return for a short input with an empty
   result slice, unlike the C++ original quoted in the source's comments;
2. five sequential `u32::read`s (min index, max index, table length, bit
   count, padding), each able to fail with `UnexpectedEof`;
3. `if min >= ENCODE_SIZE || max >= ENCODE_SIZE { return Err(InvalidData, "huffman table size") }`
   (the `< 0` halves of the source's condition are vacuous for `u32`);
4. `if compressed.len() < (bit_count + 7) / 8 { return Err(InvalidData, "huffman content length") }`
   — checked against the WHOLE input length, header included;
5. `unpack_encoding_table(..)` is called but its `IoResult` is DISCARDED
   (the call has no `?`), and the function then returns `Ok(())` without
   ever writing to `result`; the decode steps of the C++ original are
   commented out in the source. -/
def decompress (compressed : List Nat) (result_len : Nat) : RResult Unit :=
  if compressed.length < 20 ∧ result_len ≠ 0 then
    .err .unexpectedEof "invalid huffman input"
  else
    RResult.bind (readU32 compressed) fun (r1 : Nat × List Nat) =>
    RResult.bind (readU32 r1.2) fun (r2 : Nat × List Nat) =>
    RResult.bind (readU32 r2.2) fun (r3 : Nat × List Nat) =>
    RResult.bind (readU32 r3.2) fun (r4 : Nat × List Nat) =>
    let min_hcode_index := r1.1
    let max_hcode_index := r2.1
    let bit_count := r4.1
    if min_hcode_index ≥ ENCODE_SIZE ∨ max_hcode_index ≥ ENCODE_SIZE then
      .err .invalidData "huffman table size"
    else
    RResult.bind (readU32 r4.2) fun (r5 : Nat × List Nat) =>
    if compressed.length < (bit_count + 7) / 8 then
      .err .invalidData "huffman content length"
    else
      let frequencies := List.replicate ENCODE_SIZE 0
      let _ := unpack_encoding_table r5.2 min_hcode_index max_hcode_index frequencies
      .ok ()

/-- One step of the initialization loop of `build_encoding_table`
(`huffman.rs`): `for index in 0..ENCODE_SIZE { h_link[index] = index as i32;
if frequencies[index] != 0 { f_heap[nf] = index as i64; nf += 1;
max_frequency_index = index; } }`.  State:
`(h_link, f_heap, nf, max_frequency_index)`. -/
def buildScanStep (frequencies : List Nat)
    (st : List Nat × List Nat × Nat × Nat) (index : Nat) :
    List Nat × List Nat × Nat × Nat :=
  let h_link := st.1.set index index
  if frequencies.getD index 0 ≠ 0 then
    (h_link, st.2.1.set st.2.2.1 index, st.2.2.1 + 1, index)
  else
    (h_link, st.2.1, st.2.2.1, st.2.2.2)

/-- The initialization scan of `build_encoding_table`, from the
`h_link`/`f_heap` declarations through the whole `for` loop:
`h_link` and `f_heap` start as `[0; ENCODE_SIZE]` arrays, and — NB — `f_heap`
keeps its `ENCODE_SIZE` slots, of which only the first `nf` are filled with
symbol indices.  (The independent `min_frequency_index` scan of the source,
itself inverted with respect to the quoted C++, feeds nothing below and is
not part of this fragment.) -/
def build_encoding_table_scan (frequencies : List Nat) :
    List Nat × List Nat × Nat × Nat :=
  (List.range ENCODE_SIZE).foldl (buildScanStep frequencies)
    (List.replicate ENCODE_SIZE 0, List.replicate ENCODE_SIZE 0, 0, 0)

/-- The first heap round of `build_encoding_table`: after the scan, the
pseudo-symbol is appended
(`max_frequency_index += 1; frequencies[max_frequency_index] = 1;
f_heap[nf] = max_frequency_index; nf += 1;` — the `frequencies` write is
irrelevant here because the heap holds symbol indices, not frequencies),
then `let mut heap = BinaryHeap::from(f_heap.to_vec());` builds a MAX-heap
over ALL `ENCODE_SIZE` values of `f_heap` — the raw `i64` symbol indices,
zeros of the unused slots included — and the loop pops twice:
`let mm = heap.pop().expect(..); let m = heap.pop().expect(..);`.
`BinaryHeap::pop` returns a greatest element, so the popped values are the
maximum of the multiset and the maximum of the remainder. -/
def build_encoding_table_first_pops (frequencies : List Nat) : Nat × Nat :=
  let scan := build_encoding_table_scan frequencies
  let max_frequency_index := scan.2.2.2 + 1
  let f_heap := scan.2.1.set scan.2.2.1 max_frequency_index
  let mm := f_heap.foldr max 0
  let heap := f_heap.erase mm
  let m := heap.foldr max 0
  (mm, m)

end huffman

namespace image

/-- `pub struct BlockIndex` from `image/mod.rs`: layer, pixel position of the
block corner, pixel size of the block, and mip/rip level index
(`Vec2<usize>` fields become pairs of `Nat`). -/
structure BlockIndex where
  layer : Nat
  pixel_position : Nat × Nat
  pixel_size : Nat × Nat
  level : Nat × Nat
  deriving DecidableEq, Repr

/-- `pub struct LineIndex` from `image/mod.rs`. -/
structure LineIndex where
  layer : Nat
  channel : Nat
  level : Nat × Nat
  position : Nat × Nat
  sample_count : Nat
  deriving DecidableEq, Repr

/-- The parts of `meta::Header` that the embedded functions consume.
The `meta` module is not under `src/`, so the fields are modelled from the
spec: `channels` is the per-channel `bytes_per_sample` of the header's channel
list (`channel.sample_type.bytes_per_sample()`), in header order;
`max_block_byte_size` is the header's upper bound on the byte size of any of
its blocks; `chunk_count` is the number of chunks of the layer, which is also
the length of its offset table. -/
structure Header where
  channels : List Nat
  max_block_byte_size : Nat
  chunk_count : Nat
  deriving DecidableEq, Repr

/-- `channels.bytes_per_pixel` of a header's channel list.  Modelled from the
spec: the sum over channels of `bytes_per_sample`. -/
def Header.bytes_per_pixel (h : Header) : Nat := h.channels.sum

/-- The iterator state `struct LineIter` declared inside
`BlockIndex::line_indices`. -/
structure LineIter where
  layer : Nat
  level : Nat × Nat
  width : Nat
  end_y : Nat
  x : Nat
  channel_sizes : List Nat
  byte : Nat
  channel : Nat
  y : Nat
  deriving DecidableEq, Repr

/-- `impl Iterator for LineIter { fn next(&mut self) -> Option<Self::Item> }`
from `image/mod.rs`, as a step function returning the emitted item and the
successor state.  `self.channel_sizes[self.channel]` panics in Rust when the
channel list is empty (the only state with `channel ≥ channel_sizes.len()`
reachable from `line_indices`); `getD _ 0` stands in for it, and the claims
below only concern headers with at least one channel. -/
def LineIter.next (it : LineIter) : Option (((Nat × Nat) × LineIndex) × LineIter) :=
  if it.y < it.end_y then
    let byte_len := it.channel_sizes.getD it.channel 0
    let line : LineIndex :=
      { layer := it.layer, channel := it.channel, level := it.level,
        position := (it.x, it.y), sample_count := it.width }
    let return_value := ((it.byte, it.byte + byte_len), line)
    let incremented := { it with byte := it.byte + byte_len, channel := it.channel + 1 }
    let incremented :=
      if incremented.channel = it.channel_sizes.length then
        { incremented with channel := 0, y := it.y + 1 }
      else incremented
    some (return_value, incremented)
  else none

/-- The finite sequence of items yielded by a `LineIter`.  The Rust value is a
lazy iterator; the fuel passed in by `line_indices` below equals the number of
items the iterator yields, `(end_y - y) * channel_sizes.len()`, so the
generated list is exactly the yielded sequence. -/
def lineIterList : Nat → LineIter → List ((Nat × Nat) × LineIndex)
  | 0, _ => []
  | fuel + 1, it =>
    match it.next with
    | none => []
    | some (item, it') => item :: lineIterList fuel it'

/-- `pub fn line_indices(&self, header: &Header)` from `image/mod.rs`:
for each line in the block, once through each channel, with the byte ranges
advancing by `pixel_size.0 * bytes_per_sample(channel)` per item. -/
def BlockIndex.line_indices (b : BlockIndex) (h : Header) :
    List ((Nat × Nat) × LineIndex) :=
  let channel_line_sizes := h.channels.map (fun bps => b.pixel_size.1 * bps)
  lineIterList (b.pixel_size.2 * channel_line_sizes.length)
    { layer := b.layer, level := b.level, width := b.pixel_size.1,
      x := b.pixel_position.1, end_y := b.pixel_position.2 + b.pixel_size.2,
      channel_sizes := channel_line_sizes,
      byte := 0, channel := 0, y := b.pixel_position.2 }

/-- The byte size of a block: the specification's `block_size(b, h)`,
`Σ_c (w · bytes_per_sample(c)) · h`. -/
def block_size (b : BlockIndex) (h : Header) : Nat :=
  b.pixel_size.2 * (h.channels.map (fun bps => b.pixel_size.1 * bps)).sum

/-- `rangesChainedFrom start ranges = true` when each `(lo, hi)` range starts
exactly where its predecessor ended, beginning at `start`: together the ranges
tile `[start, rangesEndFrom start ranges)` contiguously, exactly once and
without overlap. -/
def rangesChainedFrom : Nat → List (Nat × Nat) → Bool
  | _, [] => true
  | start, (lo, hi) :: rest => lo = start && rangesChainedFrom hi rest

/-- The right endpoint reached by a chained range list. -/
def rangesEndFrom : Nat → List (Nat × Nat) → Nat
  | start, [] => start
  | _, (_, hi) :: rest => rangesEndFrom hi rest

end image

namespace image

/-- One row of the canonical block interleave: for the remaining channel line
sizes `d` (the suffix of the per-channel byte widths starting at channel `c`),
the items emitted at consecutive byte offsets starting at `byte`, all at
row `y`.  This is the closed form of one `y`-iteration of the `LineIter`
loop, proved equal to it below. -/
def rowItems (layer : Nat) (level : Nat × Nat) (width x y : Nat) :
    Nat → Nat → List Nat → List ((Nat × Nat) × LineIndex)
  | _, _, [] => []
  | byte, c, s :: d =>
    ((byte, byte + s),
      { layer := layer, channel := c, level := level,
        position := (x, y), sample_count := width }) ::
      rowItems layer level width x y (byte + s) (c + 1) d

/-- The closed form of the whole `LineIter` run: `r` rows starting at row `y`
and byte offset `byte`, each row walking all channels. -/
def linesModel (layer : Nat) (level : Nat × Nat) (width x : Nat) (sizes : List Nat) :
    Nat → Nat → Nat → List ((Nat × Nat) × LineIndex)
  | 0, _, _ => []
  | r + 1, byte, y =>
    rowItems layer level width x y byte 0 sizes ++
      linesModel layer level width x sizes r (byte + sizes.sum) (y + 1)

/-- `let max_allocation_size = 1024*512;` in `uncompressed_image_blocks_ordered`. -/
def max_allocation_size : Nat := 1024 * 512

/-- The length evolution of `block_bytes` inside
`uncompressed_image_blocks_ordered` (`image/mod.rs`), together with
`written_block_byte_count`.  Only the buffer length is modelled: `get_line`
writes through `&mut block_bytes[byte_range]`, which cannot change the
vector's length; the length changes only through the initial
`vec![0_u8; max_block_size.min(max_allocation_size)]`, the conditional
`block_bytes.resize((end + max_allocation_size).min(max_block_size), 0)`,
and the final `truncate`, and the data values are irrelevant to the claim. -/
def blockBytesAfterLines (max_block_size : Nat)
    (lines : List ((Nat × Nat) × LineIndex)) : Nat × Nat :=
  lines.foldl
    (fun st item =>
      let e := item.1.2
      (if st.1 < e then min (e + max_allocation_size) max_block_size else st.1, e))
    (min max_block_size max_allocation_size, 0)

/-- The `data.len()` of the `UncompressedBlock` built for block `b` by
`uncompressed_image_blocks_ordered`: the buffer length after all lines have
been visited and `block_bytes.truncate(written_block_byte_count)` has run. -/
def uncompressed_block_data_len (b : BlockIndex) (h : Header) : Nat :=
  let st := blockBytesAfterLines h.max_block_byte_size (b.line_indices h)
  min st.1 st.2

/-- The `expected_byte_size` computed by `UncompressedBlock::compress_to_chunk`:
`header.channels.bytes_per_pixel * self.index.pixel_size.area()`; the function
panics (`panic!("get_line byte size should be ...")`) whenever the block's
actual byte length differs from it. -/
def compress_to_chunk_expected_byte_size (b : BlockIndex) (h : Header) : Nat :=
  h.bytes_per_pixel * (b.pixel_size.1 * b.pixel_size.2)

/-- One call of the chunk-reader closure returned by
`read_all_compressed_chunks_from_buffered` (`image/mod.rs`):
`if remaining_chunk_count > 0 { remaining_chunk_count -= 1; Some(Chunk::read(&mut read, meta_data)) } else { None }`.
State: `remaining_chunk_count` paired with a ghost counter of how many
`Chunk::read` stream accesses have been performed (`Chunk::read` itself lives
in the `chunks` module outside `src/`; its result is abstracted to `()`). -/
def read_chunk_call (st : Nat × Nat) : Option Unit × (Nat × Nat) :=
  if 0 < st.1 then (some (), (st.1 - 1, st.2 + 1)) else (none, st)

/-- The outputs of the first `k` calls of the chunk-reader closure together
with the final state. -/
def read_chunk_calls : Nat → (Nat × Nat) → List (Option Unit) × (Nat × Nat)
  | 0, st => ([], st)
  | k + 1, st =>
    let r := read_chunk_call st
    let rest := read_chunk_calls k r.2
    (r.1 :: rest.1, rest.2)

/-- A byte sink with random write access, modelling the `Tracking` writer of
`crate::io` (not under `src/`).  Modelled from the spec: bytes are written at
the current byte position, `seek_write_to` moves the position, and a region
skipped by seeking forward reads as zero bytes until it is written (the
reserved offset-table region).  `writeAt out pos bytes` overwrites `out` at
`pos`, zero-padding if `pos` is past the current end. -/
def writeAt (out : List Nat) (pos : Nat) (bytes : List Nat) : List Nat :=
  out.take pos ++ List.replicate (pos - out.length) 0 ++ bytes ++
    out.drop (pos + bytes.length)

/-- Little-endian encoding of a `u64` value, as emitted by `u64::write_slice`
for the offset tables.  Modelled from the spec: offset tables are
little-endian unsigned 64-bit file offsets. -/
def le64 (v : Nat) : List Nat :=
  [v % 256, v / 256 % 256, v / 256 ^ 2 % 256, v / 256 ^ 3 % 256,
   v / 256 ^ 4 % 256, v / 256 ^ 5 % 256, v / 256 ^ 6 % 256, v / 256 ^ 7 % 256]

/-- The order in which the sequential write path visits chunks:
`meta_data.headers.iter().enumerate().flat_map(|(layer_index, header)| header.enumerate_ordered_blocks().map(..))`
from `uncompressed_image_blocks_ordered`.  A header is reduced to its
`chunk_count` (`counts.getD l 0` for layer `l`); `enumerate_ordered_blocks`
lives in `meta::header` outside `src/` and is modelled from the spec: it
yields `(chunk_index_within_layer, tile)` pairs with chunk indices
`0 .. chunk_count` in the header's declared order, which the sequential path
forces to `LineOrder::Increasing`. -/
def chunkPairs (counts : List Nat) : List (Nat × Nat) :=
  (List.range counts.length).flatMap (fun l =>
    (List.range (counts.getD l 0)).map (fun i => (l, i)))

/-- Writer state of `write_all_lines_to_buffered`: the output bytes written so
far, the current byte position of the `Tracking` writer, and the per-layer
offset tables `offset_tables : Vec<Vec<u64>>`. -/
structure WState where
  out : List Nat
  pos : Nat
  tables : List (List Nat)

/-- The chunk-writing closure of `write_all_lines_to_buffered`
(`image/mod.rs`), applied to each chunk in sequential enumeration order:
`offset_tables[chunk.layer_index][chunk_index] = write.byte_position() as u64;
chunk.write(&mut write, ..)`.  `chunk_bytes l i` stands for the byte sequence
emitted by `Chunk::write` for the chunk of layer `l` with in-layer index `i`
(the `chunks` module is outside `src/`; its framing is opaque here).
`compress_to_chunk` sets `layer_index := index.layer`, so the table row
indexed is the chunk's own layer. -/
def writeChunksFold (chunk_bytes : Nat → Nat → List Nat) :
    List (Nat × Nat) → WState → WState
  | [], s => s
  | (l, i) :: restPairs, s =>
    let bytes := chunk_bytes l i
    let s1 : WState :=
      { out := writeAt s.out s.pos bytes,
        pos := s.pos + bytes.length,
        tables := s.tables.set l ((s.tables.getD l []).set i s.pos) }
    writeChunksFold chunk_bytes restPairs s1

/-- `pub fn write_all_lines_to_buffered` (`image/mod.rs`), specialized to the
sequential compression path (the branch taken when parallelism or compression
is off; unspecified line orders are rewritten to `Increasing` there, and
chunks are compressed and written on the calling thread in enumeration
order).  Steps, as in the source:

1. the metadata is written (`meta_bytes`, opaque;
   `MetaData::write_validating_to_buffered` lives outside `src/`) and
   `offset_table_start_byte = write.byte_position()`;
2. `write.seek_write_to(write.byte_position() + offset_table_size * size_of::<u64>())`
   reserves `Σ chunk_count · 8` bytes by seeking forward;
3. the offset tables are initialized to `vec![0; header.chunk_count]` per
   header;
4. every chunk is written through the closure modelled by `writeChunksFold`;
5. `write.seek_write_to(offset_table_start_byte)`, then each per-layer table
   is written back as little-endian `u64` values in header order, and the
   writer is flushed.

Returns the final output bytes together with the final offset tables. -/
def write_all_lines_to_buffered (meta_bytes : List Nat) (counts : List Nat)
    (chunk_bytes : Nat → Nat → List Nat) : List Nat × List (List Nat) :=
  let offset_table_start_byte := meta_bytes.length
  let offset_table_size := counts.sum
  let s0 : WState :=
    { out := meta_bytes,
      pos := offset_table_start_byte + offset_table_size * 8,
      tables := counts.map (fun c => List.replicate c 0) }
  let s1 := writeChunksFold chunk_bytes (chunkPairs counts) s0
  (writeAt s1.out offset_table_start_byte
      ((s1.tables.map (fun t => (t.map le64).flatten)).flatten),
    s1.tables)

/-- The byte position at which the chunk `q` begins: the write base plus the
lengths of all chunks written before `q`'s first occurrence in the
enumeration. -/
def chunkPosIn (chunk_bytes : Nat → Nat → List Nat) :
    Nat → List (Nat × Nat) → Nat × Nat → Nat
  | base, [], _ => base
  | base, p :: restPairs, q =>
    if p = q then base
    else chunkPosIn chunk_bytes (base + (chunk_bytes p.1 p.2).length) restPairs q

/-- Specification-side recomputation of the offset-table updates performed by
`writeChunksFold`, used to characterize the final tables. -/
def updTables (chunk_bytes : Nat → Nat → List Nat) :
    Nat → List (Nat × Nat) → List (List Nat) → List (List Nat)
  | _, [], ts => ts
  | base, (l, i) :: restPairs, ts =>
    updTables chunk_bytes (base + (chunk_bytes l i).length) restPairs
      (ts.set l ((ts.getD l []).set i base))

end image

-- Everything below this line is a theorem; all definitions are above.

namespace RResult

@[simp] theorem bind_ok {α β : Type} (v : α) (f : α → RResult β) :
    bind (ok v) f = f v := rfl

@[simp] theorem bind_err {α β : Type} (k : ErrKind) (m : String) (f : α → RResult β) :
    bind (err k m) f = (err k m : RResult β) := rfl

end RResult

/-- C1 — Huffman round-trip: the spec claims `decompress (compress s) = s` for
every slice of 16-bit symbols.  The code cannot satisfy it: `compress` is
`unimplemented!()` and panics on every input (and `decompress` never writes
any symbol to its output slice).  This theorem evaluates the embedded
`compress` on all inputs, in particular on the failing input `[0]`. -/
theorem huffman_compress_always_panics :
    ∀ (symbols : List Nat) (result_len : Nat),
      huffman.compress symbols result_len = RResult.panic "not implemented" :=
  fun _ _ => rfl

/-- C5 — the spec claims that for `compressed.len() < 20` Huffman decompress
succeeds as a no-op when the result slice is empty, and fails when it is not.
The code only returns early in the non-empty case; with an empty result slice
it falls through into the five header `u32::read`s (the C++ original quoted in
the source's comments returns `Ok` there) and fails with an `UnexpectedEof`
error on the truncated header.  Evaluated here on the empty input: with an
empty result slice the call errors instead of succeeding, and with a non-empty
result slice it errors as claimed. -/
theorem huffman_decompress_short_input :
    huffman.decompress [] 0
        = RResult.err ErrKind.unexpectedEof "failed to fill whole buffer"
      ∧ huffman.decompress [] 3
        = RResult.err ErrKind.unexpectedEof "invalid huffman input" := by
  constructor <;> rfl

/-- C6 — the spec claims that reading bits past the end of the input byte
stream returns an error value to the caller and never panics.  In the code,
`read_bits` pulls each byte with `u8::read(..).expect("huffman read err")`,
which panics on an exhausted stream.  Evaluated here at the concrete failing
input: a 6-bit read from an empty stream with an empty accumulator. -/
theorem huffman_read_bits_past_end_panics :
    huffman.read_bits 6 0 0 [] = RResult.panic "huffman read err" := by
  rw [huffman.read_bits]
  norm_num

namespace image

theorem lineIterList_row (layer width x endY : Nat) (level : Nat × Nat)
    (sizes : List Nat) (d : List Nat) :
    ∀ (c byte rest y : Nat), y < endY → sizes.drop c = d → d ≠ [] →
      lineIterList (d.length + rest)
          { layer := layer, level := level, width := width, end_y := endY,
            x := x, channel_sizes := sizes, byte := byte, channel := c, y := y } =
        rowItems layer level width x y byte c d ++
          lineIterList rest
            { layer := layer, level := level, width := width, end_y := endY,
              x := x, channel_sizes := sizes, byte := byte + d.sum, channel := 0,
              y := y + 1 } := by
  induction d with
  | nil => intro _ _ _ _ _ _ hne; exact absurd rfl hne
  | cons s d ih =>
    intro c byte rest y hy hdrop _
    have h0 : sizes[c]? = some s := by
      rw [← List.head?_drop, hdrop]; rfl
    have hgetD : sizes.getD c 0 = s := by
      simp [List.getD, h0]
    have hdrop' : sizes.drop (c + 1) = d := by
      have h1 := List.drop_drop 1 c sizes
      rw [hdrop] at h1
      simpa [Nat.add_comm] using h1.symm
    have hfuel : (s :: d).length + rest = (d.length + rest) + 1 := by
      simp [List.length_cons]; omega
    rw [hfuel]
    rw [lineIterList]
    simp only [LineIter.next, hy, if_true, hgetD]
    cases d with
    | nil =>
      have hc1 : c + 1 = sizes.length := by
        have hlen := congrArg List.length hdrop
        simp [List.length_drop] at hlen
        omega
      simp only [hc1, if_pos rfl]
      simp [rowItems, lineIterList]
    | cons s' d' =>
      have hc1 : ¬ (c + 1 = sizes.length) := by
        have hlen := congrArg List.length hdrop'
        simp [List.length_drop] at hlen
        omega
      simp only [if_neg hc1]
      have hrec := ih (c + 1) (byte + s) rest y hy hdrop' (List.cons_ne_nil s' d')
      rw [hrec]
      simp [rowItems, List.sum_cons, Nat.add_assoc]

theorem lineIterList_rows (layer width x endY : Nat) (level : Nat × Nat)
    (sizes : List Nat) (hs : sizes ≠ []) (r : Nat) :
    ∀ (byte y : Nat), y + r = endY →
      lineIterList (r * sizes.length)
          { layer := layer, level := level, width := width, end_y := endY,
            x := x, channel_sizes := sizes, byte := byte, channel := 0, y := y } =
        linesModel layer level width x sizes r byte y := by
  induction r with
  | zero => intro byte y _; rw [Nat.zero_mul]; rfl
  | succ r ih =>
    intro byte y hr
    have hy : y < endY := by omega
    have hfuel : (r + 1) * sizes.length = sizes.length + r * sizes.length := by
      ring
    rw [hfuel]
    rw [lineIterList_row layer width x endY level sizes sizes 0 byte
      (r * sizes.length) y hy (List.drop_zero sizes) hs]
    rw [linesModel]
    rw [ih (byte + sizes.sum) (y + 1) (by omega)]

/-- `line_indices` is exactly the canonical interleave `linesModel`:
`pixel_size.1` rows starting at the block's y position, each row walking the
channels in header order with byte ranges of the per-channel line sizes. -/
theorem line_indices_eq_model (b : BlockIndex) (h : Header) (hch : h.channels ≠ []) :
    b.line_indices h =
      linesModel b.layer b.level b.pixel_size.1 b.pixel_position.1
        (h.channels.map (fun bps => b.pixel_size.1 * bps))
        b.pixel_size.2 0 b.pixel_position.2 := by
  have hs : h.channels.map (fun bps => b.pixel_size.1 * bps) ≠ [] := by
    simpa using hch
  exact lineIterList_rows b.layer b.pixel_size.1 b.pixel_position.1
    (b.pixel_position.2 + b.pixel_size.2) b.level _ hs b.pixel_size.2 0
    b.pixel_position.2 rfl

theorem rowItems_map_snd (layer width x y : Nat) (level : Nat × Nat) (d : List Nat) :
    ∀ (byte c : Nat),
      (rowItems layer level width x y byte c d).map Prod.snd =
        (List.range d.length).map (fun j =>
          ({ layer := layer, channel := c + j, level := level,
             position := (x, y), sample_count := width } : LineIndex)) := by
  induction d with
  | nil => intro _ _; rfl
  | cons s d ih =>
    intro byte c
    rw [rowItems]
    rw [List.map_cons]
    rw [ih (byte + s) (c + 1)]
    rw [List.length_cons, List.range_succ_eq_map, List.map_cons, List.map_map]
    refine congrArg₂ _ (by simp) ?_
    apply List.map_congr_left
    intro j _
    simp only [Function.comp]
    congr 1
    omega

theorem rowItems_ranges (layer width x y : Nat) (level : Nat × Nat)
    (sizes : List Nat) (d : List Nat) :
    ∀ (byte c : Nat), sizes.drop c = d →
      ∀ p ∈ rowItems layer level width x y byte c d,
        p.1.2 = p.1.1 + sizes.getD p.2.channel 0 := by
  induction d with
  | nil => intro _ _ _ p hp; exact absurd hp (List.not_mem_nil p)
  | cons s d ih =>
    intro byte c hdrop p hp
    have h0 : sizes[c]? = some s := by
      rw [← List.head?_drop, hdrop]; rfl
    have hgetD : sizes.getD c 0 = s := by
      simp [List.getD, h0]
    have hdrop' : sizes.drop (c + 1) = d := by
      have h1 := List.drop_drop 1 c sizes
      rw [hdrop] at h1
      simpa [Nat.add_comm] using h1.symm
    rw [rowItems] at hp
    rcases List.mem_cons.mp hp with heq | hmem
    · subst heq; simpa using hgetD.symm
    · exact ih (byte + s) (c + 1) hdrop' p hmem

theorem rowItems_map_fst_chained (layer width x y : Nat) (level : Nat × Nat)
    (d : List Nat) :
    ∀ (byte c : Nat),
      rangesChainedFrom byte ((rowItems layer level width x y byte c d).map Prod.fst)
        = true := by
  induction d with
  | nil => intro _ _; rfl
  | cons s d ih =>
    intro byte c
    rw [rowItems, List.map_cons]
    rw [rangesChainedFrom]
    simpa using ih (byte + s) (c + 1)

theorem rowItems_map_fst_end (layer width x y : Nat) (level : Nat × Nat)
    (d : List Nat) :
    ∀ (byte c : Nat),
      rangesEndFrom byte ((rowItems layer level width x y byte c d).map Prod.fst)
        = byte + d.sum := by
  induction d with
  | nil => intro _ _; simp [rangesEndFrom]
  | cons s d ih =>
    intro byte c
    rw [rowItems, List.map_cons, rangesEndFrom, ih (byte + s) (c + 1)]
    simp [Nat.add_assoc]

theorem rangesEndFrom_append (l1 l2 : List (Nat × Nat)) :
    ∀ s, rangesEndFrom s (l1 ++ l2) = rangesEndFrom (rangesEndFrom s l1) l2 := by
  induction l1 with
  | nil => intro s; rfl
  | cons p l1 ih => intro s; cases p; simp [rangesEndFrom, ih]

theorem rangesChainedFrom_append (l1 l2 : List (Nat × Nat)) :
    ∀ s, rangesChainedFrom s (l1 ++ l2) =
      (rangesChainedFrom s l1 && rangesChainedFrom (rangesEndFrom s l1) l2) := by
  induction l1 with
  | nil => intro s; simp [rangesChainedFrom, rangesEndFrom]
  | cons p l1 ih =>
    intro s; cases p
    simp [rangesChainedFrom, rangesEndFrom, ih, Bool.and_assoc]

theorem linesModel_map_snd (layer width x : Nat) (level : Nat × Nat)
    (sizes : List Nat) (r : Nat) :
    ∀ (byte y : Nat),
      (linesModel layer level width x sizes r byte y).map Prod.snd =
        (List.range r).flatMap (fun dy =>
          (List.range sizes.length).map (fun c =>
            ({ layer := layer, channel := c, level := level,
               position := (x, y + dy), sample_count := width } : LineIndex))) := by
  induction r with
  | zero => intro _ _; rfl
  | succ r ih =>
    intro byte y
    rw [linesModel, List.map_append]
    rw [rowItems_map_snd layer width x y level sizes byte 0]
    rw [ih (byte + sizes.sum) (y + 1)]
    rw [List.range_succ_eq_map, List.flatMap_cons, List.flatMap_map]
    refine congrArg₂ _ ?_ ?_
    · apply List.map_congr_left
      intro j _
      simp
    · apply List.flatMap_congr
      intro dy _
      apply List.map_congr_left
      intro c _
      have hyy : y + 1 + dy = y + Nat.succ dy := by omega
      rw [hyy]

theorem linesModel_ranges (layer width x : Nat) (level : Nat × Nat)
    (sizes : List Nat) (r : Nat) :
    ∀ (byte y : Nat), ∀ p ∈ linesModel layer level width x sizes r byte y,
      p.1.2 = p.1.1 + sizes.getD p.2.channel 0 := by
  induction r with
  | zero => intro _ _ p hp; exact absurd hp (List.not_mem_nil p)
  | succ r ih =>
    intro byte y p hp
    rw [linesModel] at hp
    rcases List.mem_append.mp hp with hmem | hmem
    · exact rowItems_ranges layer width x y level sizes sizes byte 0
        (List.drop_zero sizes) p hmem
    · exact ih (byte + sizes.sum) (y + 1) p hmem

theorem linesModel_chained (layer width x : Nat) (level : Nat × Nat)
    (sizes : List Nat) (r : Nat) :
    ∀ (byte y : Nat),
      rangesChainedFrom byte
          ((linesModel layer level width x sizes r byte y).map Prod.fst) = true
        ∧ rangesEndFrom byte
            ((linesModel layer level width x sizes r byte y).map Prod.fst)
          = byte + r * sizes.sum := by
  induction r with
  | zero => intro _ _; exact ⟨rfl, by simp [linesModel, rangesEndFrom]⟩
  | succ r ih =>
    intro byte y
    rw [linesModel, List.map_append, rangesChainedFrom_append, rangesEndFrom_append]
    rw [rowItems_map_fst_chained layer width x y level sizes byte 0]
    rw [rowItems_map_fst_end layer width x y level sizes byte 0]
    obtain ⟨h1, h2⟩ := ih (byte + sizes.sum) (y + 1)
    rw [h1, h2]
    constructor
    · rfl
    · ring

/-- C2 — for every `BlockIndex b` and compatible header `h` (a header with at
least one channel; `line_indices` indexes `channel_sizes[0]` and a channel-less
header would panic), the items yielded by `b.line_indices(h)` are emitted in
order `y` outer (from `y0` to `y0 + height` exclusive) and channel inner
(header order), each byte range has length
`pixel_size.0 · bytes_per_sample(channel)`, and the ranges chain contiguously
from byte `0` to `block_size(b, h)`: they cover `[0, block_size(b,h))` exactly
once, without gaps or overlap. -/
theorem block_line_indices_canonical_cover (b : BlockIndex) (h : Header)
    (hch : h.channels ≠ []) :
    ((b.line_indices h).map Prod.snd =
        (List.range b.pixel_size.2).flatMap (fun dy =>
          (List.range h.channels.length).map (fun c =>
            ({ layer := b.layer, channel := c, level := b.level,
               position := (b.pixel_position.1, b.pixel_position.2 + dy),
               sample_count := b.pixel_size.1 } : LineIndex))))
      ∧ (∀ p ∈ b.line_indices h,
          p.1.2 = p.1.1 + b.pixel_size.1 * h.channels.getD p.2.channel 0)
      ∧ rangesChainedFrom 0 ((b.line_indices h).map Prod.fst) = true
      ∧ rangesEndFrom 0 ((b.line_indices h).map Prod.fst) = block_size b h := by
  rw [line_indices_eq_model b h hch]
  have hlen : (h.channels.map (fun bps => b.pixel_size.1 * bps)).length
      = h.channels.length := List.length_map _ _
  have hgd : ∀ ch : Nat,
      (h.channels.map (fun bps => b.pixel_size.1 * bps)).getD ch 0
        = b.pixel_size.1 * h.channels.getD ch 0 := by
    intro ch
    simpa using List.getD_map (l := h.channels) (d := 0) (n := ch)
      (fun bps => b.pixel_size.1 * bps)
  refine ⟨?_, ?_, ?_, ?_⟩
  · rw [linesModel_map_snd, hlen]
  · intro p hp
    rw [linesModel_ranges _ _ _ _ _ _ _ _ p hp]
    rw [hgd]
  · exact (linesModel_chained b.layer b.pixel_size.1 b.pixel_position.1 b.level
      _ b.pixel_size.2 0 b.pixel_position.2).1
  · rw [(linesModel_chained b.layer b.pixel_size.1 b.pixel_position.1 b.level
      _ b.pixel_size.2 0 b.pixel_position.2).2]
    simp [block_size]

/-- Witness for C2 at a concrete block and header: layer 0, block corner
`(1, 5)`, block size `3 × 2`, two channels of 2 and 4 bytes per sample. -/
theorem block_line_indices_canonical_cover_witness :
    (({ channels := [2, 4], max_block_byte_size := 99, chunk_count := 1 }
        : Header).channels ≠ [])
    ∧ (((BlockIndex.line_indices
            { layer := 0, pixel_position := (1, 5), pixel_size := (3, 2),
              level := (0, 0) }
            { channels := [2, 4], max_block_byte_size := 99, chunk_count := 1 }).map
              Prod.snd =
          (List.range (3, 2).2).flatMap (fun dy =>
            (List.range ([2, 4] : List Nat).length).map (fun c =>
              ({ layer := 0, channel := c, level := (0, 0),
                 position := ((1, 5).1, (1, 5).2 + dy),
                 sample_count := (3, 2).1 } : LineIndex))))
        ∧ (∀ p ∈ BlockIndex.line_indices
              { layer := 0, pixel_position := (1, 5), pixel_size := (3, 2),
                level := (0, 0) }
              { channels := [2, 4], max_block_byte_size := 99, chunk_count := 1 },
            p.1.2 = p.1.1 + (3, 2).1 * ([2, 4] : List Nat).getD p.2.channel 0)
        ∧ rangesChainedFrom 0
            ((BlockIndex.line_indices
              { layer := 0, pixel_position := (1, 5), pixel_size := (3, 2),
                level := (0, 0) }
              { channels := [2, 4], max_block_byte_size := 99, chunk_count := 1 }).map
                Prod.fst) = true
        ∧ rangesEndFrom 0
            ((BlockIndex.line_indices
              { layer := 0, pixel_position := (1, 5), pixel_size := (3, 2),
                level := (0, 0) }
              { channels := [2, 4], max_block_byte_size := 99, chunk_count := 1 }).map
                Prod.fst)
          = block_size
              { layer := 0, pixel_position := (1, 5), pixel_size := (3, 2),
                level := (0, 0) }
              { channels := [2, 4], max_block_byte_size := 99, chunk_count := 1 }) :=
  ⟨by decide,
    block_line_indices_canonical_cover
      { layer := 0, pixel_position := (1, 5), pixel_size := (3, 2), level := (0, 0) }
      { channels := [2, 4], max_block_byte_size := 99, chunk_count := 1 }
      (by decide)⟩

theorem rangesEndFrom_eq_getLastD (rs : List (Nat × Nat)) :
    ∀ s, rangesEndFrom s rs = (rs.map Prod.snd).getLastD s := by
  induction rs with
  | nil => intro s; rfl
  | cons p rs ih =>
    intro s
    obtain ⟨lo, hi⟩ := p
    rw [rangesEndFrom, ih hi, List.map_cons, List.getLastD_cons]

theorem start_le_rangesEndFrom (rs : List (Nat × Nat)) :
    ∀ s, rangesChainedFrom s rs = true → (∀ p ∈ rs, p.1 ≤ p.2) →
      s ≤ rangesEndFrom s rs := by
  induction rs with
  | nil => intro s _ _; exact Nat.le_refl s
  | cons p rs ih =>
    intro s hch hle
    obtain ⟨lo, hi⟩ := p
    rw [rangesChainedFrom] at hch
    simp only [Bool.and_eq_true, decide_eq_true_eq] at hch
    have h1 : lo ≤ hi := hle (lo, hi) (List.mem_cons_self _ _)
    have h2 := ih hi hch.2 (fun q hq => hle q (List.mem_cons_of_mem _ hq))
    rw [rangesEndFrom]
    omega

theorem ranges_hi_le_end (rs : List (Nat × Nat)) :
    ∀ s, rangesChainedFrom s rs = true → (∀ p ∈ rs, p.1 ≤ p.2) →
      ∀ p ∈ rs, p.2 ≤ rangesEndFrom s rs := by
  induction rs with
  | nil => intro s _ _ p hp; exact absurd hp (List.not_mem_nil p)
  | cons q rs ih =>
    intro s hch hle p hp
    obtain ⟨lo, hi⟩ := q
    rw [rangesChainedFrom] at hch
    simp only [Bool.and_eq_true, decide_eq_true_eq] at hch
    rw [rangesEndFrom]
    rcases List.mem_cons.mp hp with heq | hmem
    · subst heq
      exact start_le_rangesEndFrom rs hi hch.2
        (fun q hq => hle q (List.mem_cons_of_mem _ hq))
    · exact ih hi hch.2 (fun q hq => hle q (List.mem_cons_of_mem _ hq)) p hmem

theorem blockFoldEnds (maxB : Nat) (es : List Nat) :
    ∀ st : Nat × Nat, (∀ e ∈ es, e ≤ maxB) → st.2 ≤ st.1 →
      (es.foldl (fun st e =>
          (if st.1 < e then min (e + max_allocation_size) maxB else st.1, e)) st).2
        ≤ (es.foldl (fun st e =>
          (if st.1 < e then min (e + max_allocation_size) maxB else st.1, e)) st).1
      ∧ (es.foldl (fun st e =>
          (if st.1 < e then min (e + max_allocation_size) maxB else st.1, e)) st).2
        = es.getLastD st.2 := by
  induction es with
  | nil => intro st _ hst; exact ⟨hst, rfl⟩
  | cons e es ih =>
    intro st hbound hst
    have he : e ≤ maxB := hbound e (List.mem_cons_self _ _)
    have hbound' : ∀ e' ∈ es, e' ≤ maxB :=
      fun e' he' => hbound e' (List.mem_cons_of_mem _ he')
    have hst' : e ≤ (if st.1 < e then min (e + max_allocation_size) maxB else st.1) := by
      by_cases hc : st.1 < e
      · simp only [hc, if_true]
        exact Nat.le_min.mpr ⟨Nat.le_add_right _ _, he⟩
      · simp only [hc, if_false]
        omega
    rw [List.foldl_cons, List.getLastD_cons]
    exact ih _ hbound' hst'

/-- C9 — every `UncompressedBlock` produced by the write path's block
enumerator `uncompressed_image_blocks_ordered` has
`data.len() = Σ_c (w · bytes_per_sample(c)) · h` for its pixel rectangle
(`= block_size b h`), and that quantity equals
`channels.bytes_per_pixel · pixel_size.area()`, the value against which
`compress_to_chunk` cross-checks before panicking — so the fatal check never
fires for blocks produced by the pipeline itself.  The hypotheses delimit the
pipeline's own blocks: the header has at least one channel and the header's
`max_block_byte_size` bound (a `meta` quantity modelled from the spec) is
large enough for the block, which is what makes the buffer `resize` calls in
the source reach every written line. -/
theorem uncompressed_block_data_len_correct (b : BlockIndex) (h : Header)
    (hch : h.channels ≠ [])
    (hmax : block_size b h ≤ h.max_block_byte_size) :
    uncompressed_block_data_len b h = block_size b h
      ∧ block_size b h = compress_to_chunk_expected_byte_size b h := by
  have hmodel := line_indices_eq_model b h hch
  have hchained : rangesChainedFrom 0 ((b.line_indices h).map Prod.fst) = true := by
    rw [hmodel]
    exact (linesModel_chained b.layer b.pixel_size.1 b.pixel_position.1 b.level
      _ b.pixel_size.2 0 b.pixel_position.2).1
  have hend : rangesEndFrom 0 ((b.line_indices h).map Prod.fst) = block_size b h := by
    rw [hmodel]
    rw [(linesModel_chained b.layer b.pixel_size.1 b.pixel_position.1 b.level
      _ b.pixel_size.2 0 b.pixel_position.2).2]
    simp [block_size]
  have hlohi : ∀ p ∈ (b.line_indices h).map Prod.fst, p.1 ≤ p.2 := by
    intro p hp
    obtain ⟨q, hq, rfl⟩ := List.mem_map.mp hp
    have hq' : q ∈ linesModel b.layer b.level b.pixel_size.1 b.pixel_position.1
        (h.channels.map (fun bps => b.pixel_size.1 * bps)) b.pixel_size.2 0
        b.pixel_position.2 := hmodel ▸ hq
    have := linesModel_ranges b.layer b.pixel_size.1 b.pixel_position.1 b.level
      _ b.pixel_size.2 0 b.pixel_position.2 q hq'
    omega
  have hhi : ∀ p ∈ (b.line_indices h).map Prod.fst, p.2 ≤ block_size b h := by
    intro p hp
    rw [← hend]
    exact ranges_hi_le_end _ 0 hchained hlohi p hp
  have hfold : blockBytesAfterLines h.max_block_byte_size (b.line_indices h)
      = ((b.line_indices h).map (fun p => p.1.2)).foldl
          (fun st e =>
            (if st.1 < e then min (e + max_allocation_size) h.max_block_byte_size
              else st.1, e))
          (min h.max_block_byte_size max_allocation_size, 0) := by
    rw [List.foldl_map]
    rfl
  have hbound : ∀ e ∈ (b.line_indices h).map (fun p => p.1.2),
      e ≤ h.max_block_byte_size := by
    intro e he
    obtain ⟨q, hq, rfl⟩ := List.mem_map.mp he
    have : (Prod.fst q).2 ≤ block_size b h :=
      hhi (Prod.fst q) (List.mem_map.mpr ⟨q, hq, rfl⟩)
    omega
  have hfacts := blockFoldEnds h.max_block_byte_size
    ((b.line_indices h).map (fun p => p.1.2))
    (min h.max_block_byte_size max_allocation_size, 0) hbound (Nat.zero_le _)
  have hlast : ((b.line_indices h).map (fun p => p.1.2)).getLastD 0
      = block_size b h := by
    have hmm : (b.line_indices h).map (fun p => p.1.2)
        = ((b.line_indices h).map Prod.fst).map Prod.snd := by
      rw [List.map_map]
      rfl
    rw [hmm, ← rangesEndFrom_eq_getLastD, hend]
  constructor
  · rw [uncompressed_block_data_len, hfold]
    rw [Nat.min_eq_right hfacts.1, hfacts.2, hlast]
  · rw [block_size, compress_to_chunk_expected_byte_size, Header.bytes_per_pixel]
    have hsum : (h.channels.map (fun bps => b.pixel_size.1 * bps)).sum
        = b.pixel_size.1 * h.channels.sum := by
      simpa using List.sum_map_mul_left h.channels id b.pixel_size.1
    rw [hsum]
    ring

/-- Witness for C9 at a concrete block and header: a `2 × 1` block of one
4-byte channel, whose block size (8 bytes) is within the header's
`max_block_byte_size` of 1000. -/
theorem uncompressed_block_data_len_correct_witness :
    (({ channels := [4], max_block_byte_size := 1000, chunk_count := 1 }
        : Header).channels ≠ [])
    ∧ block_size
        { layer := 1, pixel_position := (0, 0), pixel_size := (2, 1), level := (0, 0) }
        { channels := [4], max_block_byte_size := 1000, chunk_count := 1 }
      ≤ ({ channels := [4], max_block_byte_size := 1000, chunk_count := 1 }
          : Header).max_block_byte_size
    ∧ (uncompressed_block_data_len
          { layer := 1, pixel_position := (0, 0), pixel_size := (2, 1), level := (0, 0) }
          { channels := [4], max_block_byte_size := 1000, chunk_count := 1 }
        = block_size
          { layer := 1, pixel_position := (0, 0), pixel_size := (2, 1), level := (0, 0) }
          { channels := [4], max_block_byte_size := 1000, chunk_count := 1 }
      ∧ block_size
          { layer := 1, pixel_position := (0, 0), pixel_size := (2, 1), level := (0, 0) }
          { channels := [4], max_block_byte_size := 1000, chunk_count := 1 }
        = compress_to_chunk_expected_byte_size
          { layer := 1, pixel_position := (0, 0), pixel_size := (2, 1), level := (0, 0) }
          { channels := [4], max_block_byte_size := 1000, chunk_count := 1 }) :=
  ⟨by decide, by decide,
    uncompressed_block_data_len_correct
      { layer := 1, pixel_position := (0, 0), pixel_size := (2, 1), level := (0, 0) }
      { channels := [4], max_block_byte_size := 1000, chunk_count := 1 }
      (by decide) (by decide)⟩

theorem read_chunk_calls_spec : ∀ (k n r : Nat),
    (∀ i : Nat, (read_chunk_calls k (n, r)).1.getD i none
        = if i < k ∧ i < n then some () else none)
      ∧ (read_chunk_calls k (n, r)).2.1 = n - k
      ∧ (read_chunk_calls k (n, r)).2.2 = r + min k n := by
  intro k
  induction k with
  | zero =>
    intro n r
    refine ⟨fun i => by simp [read_chunk_calls, List.getD], by simp [read_chunk_calls],
      by simp [read_chunk_calls]⟩
  | succ k ih =>
    intro n r
    cases n with
    | zero =>
      have hcall : read_chunk_call (0, r) = (none, (0, r)) := by
        simp [read_chunk_call]
      refine ⟨fun i => ?_, ?_, ?_⟩
      · cases i with
        | zero => simp [read_chunk_calls, hcall, List.getD]
        | succ i =>
          have := (ih 0 r).1 i
          simp only [read_chunk_calls, hcall] at *
          simpa using this
      · simpa [read_chunk_calls, hcall] using (ih 0 r).2.1
      · simpa [read_chunk_calls, hcall] using (ih 0 r).2.2
    | succ m =>
      have hcall : read_chunk_call (m + 1, r) = (some (), (m, r + 1)) := by
        simp [read_chunk_call]
      refine ⟨fun i => ?_, ?_, ?_⟩
      · cases i with
        | zero => simp [read_chunk_calls, hcall, List.getD]
        | succ i =>
          have := (ih m (r + 1)).1 i
          simp only [read_chunk_calls, hcall] at *
          rw [List.getD_cons_succ, this]
          by_cases h1 : i < k ∧ i < m
          · simp [h1, Nat.succ_lt_succ h1.1, Nat.succ_lt_succ h1.2]
          · have : ¬ (i + 1 < k + 1 ∧ i + 1 < m + 1) := by omega
            simp [h1, this]
      · have := (ih m (r + 1)).2.1
        simp only [read_chunk_calls, hcall]
        omega
      · have := (ih m (r + 1)).2.2
        simp only [read_chunk_calls, hcall]
        rw [this]
        omega

/-- C10 — the chunk-reader closure returned by
`read_all_compressed_chunks_from_buffered` yields `Some` for exactly the first
`min k n` of any `k` calls, where `n` is the chunk count recorded while
skipping the offset tables, and `None` on every later call; the number of
`Chunk::read` stream accesses it performs is `min k n ≤ n`, so it never
attempts to read a further chunk from the stream. -/
theorem chunk_reader_yields_at_most_chunk_count (n k : Nat) :
    (∀ i : Nat, (read_chunk_calls k (n, 0)).1.getD i none
        = if i < k ∧ i < n then some () else none)
      ∧ (read_chunk_calls k (n, 0)).2.2 = min k n := by
  refine ⟨(read_chunk_calls_spec k n 0).1, ?_⟩
  have := (read_chunk_calls_spec k n 0).2.2
  omega

end image

/-- C4 (amended claim) — what `huffman::decompress` actually validates on an
input that contains the full 20-byte header (written here as its twenty
leading bytes): it returns the "huffman table size" error exactly when
`iMin ≥ ENCODE_SIZE` or `iMax ≥ ENCODE_SIZE`, otherwise the
"huffman content length" error exactly when
`compressed.len() < (nBits + 7) / 8` — the bound is taken against the WHOLE
input length, header included — and otherwise it returns `Ok`.  In
particular, contrary to the claim, no `iMin < iMax` comparison is made and
the `nBits` bound is not `8 · body_length`. -/
theorem huffman_decompress_validates_header
    (b0 b1 b2 b3 b4 b5 b6 b7 b8 b9 b10 b11 b12 b13 b14 b15 b16 b17 b18 b19 : Nat)
    (rest : List Nat) (result_len : Nat) :
    huffman.decompress
        (b0 :: b1 :: b2 :: b3 :: b4 :: b5 :: b6 :: b7 :: b8 :: b9 :: b10 :: b11 ::
          b12 :: b13 :: b14 :: b15 :: b16 :: b17 :: b18 :: b19 :: rest) result_len =
      if huffman.ENCODE_SIZE ≤ b0 + 256 * b1 + 65536 * b2 + 16777216 * b3
          ∨ huffman.ENCODE_SIZE ≤ b4 + 256 * b5 + 65536 * b6 + 16777216 * b7 then
        RResult.err ErrKind.invalidData "huffman table size"
      else if (b0 :: b1 :: b2 :: b3 :: b4 :: b5 :: b6 :: b7 :: b8 :: b9 :: b10 :: b11 ::
          b12 :: b13 :: b14 :: b15 :: b16 :: b17 :: b18 :: b19 :: rest).length
            < (b12 + 256 * b13 + 65536 * b14 + 16777216 * b15 + 7) / 8 then
        RResult.err ErrKind.invalidData "huffman content length"
      else RResult.ok () := by
  have hc : ¬ ((b0 :: b1 :: b2 :: b3 :: b4 :: b5 :: b6 :: b7 :: b8 :: b9 :: b10 :: b11 ::
      b12 :: b13 :: b14 :: b15 :: b16 :: b17 :: b18 :: b19 :: rest).length < 20
        ∧ result_len ≠ 0) := by
    simp only [List.length_cons]
    omega
  rw [huffman.decompress, if_neg hc]
  simp only [huffman.readU32, RResult.bind_ok]

/-- C4 (counterexample) — the claim as stated demands an error whenever
`iMin ≥ iMax` or `nBits > 8 · body_length`.  Two concrete 20-byte inputs on
which `decompress` nevertheless succeeds: twenty zero bytes (`iMin = iMax = 0`,
so `iMin ≥ iMax`), and a header with `nBits = 160` over an empty body
(`nBits = 160 > 8 · 0 = 8 · body_length`, yet `(160+7)/8 = 20 ≤ 20 = len`). -/
theorem huffman_decompress_header_check_counterexample :
    huffman.decompress (List.replicate 20 0) 5 = RResult.ok ()
      ∧ huffman.decompress
          [0, 0, 0, 0, 0, 0, 0, 0, 0, 0, 0, 0, 160, 0, 0, 0, 0, 0, 0, 0] 5
        = RResult.ok () := by
  constructor <;> rfl

namespace image

theorem getD_set_self {α : Type} (l : List α) (n : Nat) (a d : α) (h : n < l.length) :
    (l.set n a).getD n d = a := by
  simp [List.getD, List.getElem?_set_self h]

theorem getD_set_ne {α : Type} (l : List α) (m n : Nat) (a d : α) (h : m ≠ n) :
    (l.set m a).getD n d = l.getD n d := by
  simp [List.getD, List.getElem?_set_ne h]

theorem extract_append_stable {α : Type} (out ext : List α) (p n : Nat)
    (h : p + n ≤ out.length) :
    ((out ++ ext).drop p).take n = (out.drop p).take n := by
  rw [List.drop_append_of_le_length (by omega)]
  rw [List.take_append_of_le_length (by rw [List.length_drop]; omega)]

theorem writeAt_of_le (out : List Nat) (pos : Nat) (bytes : List Nat)
    (h : out.length ≤ pos) :
    writeAt out pos bytes
      = out ++ (List.replicate (pos - out.length) 0 ++ bytes) := by
  rw [writeAt, List.take_of_length_le h,
    List.drop_of_length_le (by omega), List.append_nil, List.append_assoc]

theorem chunkPosIn_ge (chunk_bytes : Nat → Nat → List Nat) (pairs : List (Nat × Nat)) :
    ∀ (base : Nat) (q : Nat × Nat), base ≤ chunkPosIn chunk_bytes base pairs q := by
  induction pairs with
  | nil => intro base q; exact Nat.le_refl base
  | cons p pairs ih =>
    intro base q
    obtain ⟨l, i⟩ := p
    rw [chunkPosIn]
    by_cases hpq : (l, i) = q
    · rw [if_pos hpq]
    · rw [if_neg hpq]
      exact Nat.le_trans (Nat.le_add_right _ _) (ih _ q)

theorem updTables_length (chunk_bytes : Nat → Nat → List Nat)
    (pairs : List (Nat × Nat)) :
    ∀ (base : Nat) (ts : List (List Nat)),
      (updTables chunk_bytes base pairs ts).length = ts.length
        ∧ ∀ l : Nat, ((updTables chunk_bytes base pairs ts).getD l []).length
            = (ts.getD l []).length := by
  induction pairs with
  | nil => intro base ts; exact ⟨rfl, fun _ => rfl⟩
  | cons p pairs ih =>
    intro base ts
    obtain ⟨l, i⟩ := p
    rw [updTables]
    obtain ⟨h1, h2⟩ := ih (base + (chunk_bytes l i).length)
      (ts.set l ((ts.getD l []).set i base))
    refine ⟨by rw [h1, List.length_set], fun l' => ?_⟩
    rw [h2 l']
    by_cases hl : l = l'
    · subst hl
      by_cases hlen : l < ts.length
      · rw [getD_set_self _ _ _ _ hlen, List.length_set]
      · rw [List.set_eq_of_length_le (by omega)]
    · rw [getD_set_ne _ _ _ _ _ hl]

theorem updTables_not_mem (chunk_bytes : Nat → Nat → List Nat)
    (pairs : List (Nat × Nat)) :
    ∀ (base : Nat) (ts : List (List Nat)) (l i : Nat), (l, i) ∉ pairs →
      ((updTables chunk_bytes base pairs ts).getD l []).getD i 0
        = (ts.getD l []).getD i 0 := by
  induction pairs with
  | nil => intro base ts l i _; rfl
  | cons p pairs ih =>
    intro base ts l i hmem
    obtain ⟨l', i'⟩ := p
    rw [updTables]
    rw [ih _ _ l i (fun hm => hmem (List.mem_cons_of_mem _ hm))]
    by_cases hl : l' = l
    · subst hl
      have hii : i' ≠ i := by
        intro hie
        exact hmem (by rw [hie]; exact List.mem_cons_self _ _)
      by_cases hlen : l' < ts.length
      · rw [getD_set_self _ _ _ _ hlen, getD_set_ne _ _ _ _ _ hii]
      · rw [List.set_eq_of_length_le (by omega)]
    · rw [getD_set_ne _ _ _ _ _ hl]

theorem updTables_entry (chunk_bytes : Nat → Nat → List Nat)
    (pairs : List (Nat × Nat)) :
    ∀ (base : Nat) (ts : List (List Nat)) (l i : Nat),
      pairs.Nodup → (l, i) ∈ pairs → l < ts.length → i < (ts.getD l []).length →
      ((updTables chunk_bytes base pairs ts).getD l []).getD i 0
        = chunkPosIn chunk_bytes base pairs (l, i) := by
  induction pairs with
  | nil => intro _ _ l i _ hmem; exact absurd hmem (List.not_mem_nil _)
  | cons p pairs ih =>
    intro base ts l i hnd hmem hl hi
    obtain ⟨l', i'⟩ := p
    rw [updTables, chunkPosIn]
    by_cases hpq : (l', i') = (l, i)
    · rw [if_pos hpq]
      obtain ⟨heql, heqi⟩ := Prod.mk.injEq .. ▸ hpq
      subst heql; subst heqi
      have hnotin : (l', i') ∉ pairs := (List.nodup_cons.mp hnd).1
      rw [updTables_not_mem chunk_bytes pairs _ _ l' i' hnotin]
      rw [getD_set_self _ _ _ _ hl, getD_set_self _ _ _ _ hi]
    · rw [if_neg hpq]
      have hmem' : (l, i) ∈ pairs := by
        rcases List.mem_cons.mp hmem with heq | hm
        · exact absurd heq.symm hpq
        · exact hm
      refine ih _ _ l i (List.nodup_cons.mp hnd).2 hmem' ?_ ?_
      · rw [List.length_set]; exact hl
      · by_cases hll : l' = l
        · subst hll
          by_cases hlen : l' < ts.length
          · rw [getD_set_self _ _ _ _ hlen, List.length_set]; exact hi
          · rw [List.set_eq_of_length_le (by omega)]; exact hi
        · rw [getD_set_ne _ _ _ _ _ hll]; exact hi

theorem writeChunksFold_spec (chunk_bytes : Nat → Nat → List Nat)
    (pairs : List (Nat × Nat)) :
    ∀ s : WState, s.out.length ≤ s.pos →
      (∃ ext, (writeChunksFold chunk_bytes pairs s).out = s.out ++ ext)
      ∧ (writeChunksFold chunk_bytes pairs s).out.length
          ≤ (writeChunksFold chunk_bytes pairs s).pos
      ∧ (writeChunksFold chunk_bytes pairs s).tables
          = updTables chunk_bytes s.pos pairs s.tables
      ∧ ∀ q ∈ pairs,
          chunkPosIn chunk_bytes s.pos pairs q + (chunk_bytes q.1 q.2).length
              ≤ (writeChunksFold chunk_bytes pairs s).out.length
          ∧ ((writeChunksFold chunk_bytes pairs s).out.drop
                (chunkPosIn chunk_bytes s.pos pairs q)).take
                  (chunk_bytes q.1 q.2).length
            = chunk_bytes q.1 q.2 := by
  induction pairs with
  | nil =>
    intro s hs
    exact ⟨⟨[], (List.append_nil s.out).symm⟩, hs, rfl,
      fun q hq => absurd hq (List.not_mem_nil q)⟩
  | cons p pairs ih =>
    intro s hs
    obtain ⟨l, i⟩ := p
    rw [writeChunksFold]
    set bytes := chunk_bytes l i with hbytes
    set s1 : WState :=
      { out := writeAt s.out s.pos bytes,
        pos := s.pos + bytes.length,
        tables := s.tables.set l ((s.tables.getD l []).set i s.pos) } with hs1
    have hout1 : s1.out = s.out ++ (List.replicate (s.pos - s.out.length) 0 ++ bytes) :=
      writeAt_of_le s.out s.pos bytes hs
    have hlen1 : s1.out.length = s.pos + bytes.length := by
      rw [hout1]
      simp [List.length_append, List.length_replicate]
      omega
    have hs1le : s1.out.length ≤ s1.pos := by rw [hlen1]
    obtain ⟨⟨ext, hext⟩, hle, htab, hcontent⟩ := ih s1 hs1le
    refine ⟨?_, hle, ?_, ?_⟩
    · refine ⟨List.replicate (s.pos - s.out.length) 0 ++ bytes ++ ext, ?_⟩
      rw [hext, hout1, List.append_assoc]
    · rw [htab, updTables]
    · intro q hq
      rcases List.mem_cons.mp hq with heq | hmem
      · subst heq
        rw [chunkPosIn, if_pos rfl]
        have hg : (chunk_bytes (l, i).1 (l, i).2).length = bytes.length := rfl
        have hpos1 : s1.pos = s.pos + bytes.length := rfl
        constructor
        · have := List.length_append s1.out ext ▸ congrArg List.length hext
          omega
        · have hbl : (s.out ++ List.replicate (s.pos - s.out.length) 0).length
              = s.pos := by
            simp [List.length_append, List.length_replicate]
            omega
          have hdrop1 : (s1.out.drop s.pos).take bytes.length = bytes := by
            rw [hout1, ← List.append_assoc, List.drop_left' hbl,
              List.take_of_length_le (Nat.le_refl _)]
          rw [hext, extract_append_stable s1.out ext s.pos bytes.length
            (by omega), hdrop1]
      · rw [chunkPosIn]
        by_cases hpq : (l, i) = q
        · rw [if_pos hpq]
          obtain ⟨hcl, hci⟩ := Prod.mk.injEq .. ▸ hpq
          subst hcl; subst hci
          have hg := congrArg List.length hbytes
          have hpos1 : s1.pos = s.pos + bytes.length := rfl
          constructor
          · have := List.length_append s1.out ext ▸ congrArg List.length hext
            omega
          · have hbl : (s.out ++ List.replicate (s.pos - s.out.length) 0).length
                = s.pos := by
              simp [List.length_append, List.length_replicate]
              omega
            have hdrop1 : (s1.out.drop s.pos).take bytes.length = bytes := by
              rw [hout1, ← List.append_assoc, List.drop_left' hbl,
                List.take_of_length_le (Nat.le_refl _)]
            rw [hext, extract_append_stable s1.out ext s.pos bytes.length
              (by omega), hdrop1]
        · rw [if_neg hpq]
          exact hcontent q hmem

theorem mem_chunkPairs (counts : List Nat) (l i : Nat) :
    (l, i) ∈ chunkPairs counts ↔ l < counts.length ∧ i < counts.getD l 0 := by
  rw [chunkPairs, List.mem_flatMap]
  constructor
  · rintro ⟨a, ha, hmem⟩
    obtain ⟨b, hb, heq⟩ := List.mem_map.mp hmem
    obtain ⟨h1, h2⟩ := Prod.mk.injEq .. ▸ heq
    subst h1; subst h2
    exact ⟨List.mem_range.mp ha, List.mem_range.mp hb⟩
  · rintro ⟨hl, hi⟩
    exact ⟨l, List.mem_range.mpr hl,
      List.mem_map.mpr ⟨i, List.mem_range.mpr hi, rfl⟩⟩

theorem chunkPairs_nodup (counts : List Nat) : (chunkPairs counts).Nodup := by
  rw [chunkPairs, List.nodup_flatMap]
  constructor
  · intro x _
    exact (List.nodup_range _).map (fun a b h => ((Prod.mk.injEq ..).mp h).2)
  · have hlt := List.pairwise_lt_range counts.length
    refine hlt.imp ?_
    intro a b hab
    intro p hpa hpb
    obtain ⟨ia, _, heqa⟩ := List.mem_map.mp hpa
    obtain ⟨ib, _, heqb⟩ := List.mem_map.mp hpb
    rw [← heqa] at heqb
    have := ((Prod.mk.injEq ..).mp heqb).1
    omega

theorem le64_length (v : Nat) : (le64 v).length = 8 := rfl

theorem flatten_le64_length (t : List Nat) :
    ((t.map le64).flatten).length = 8 * t.length := by
  induction t with
  | nil => rfl
  | cons v t ih =>
    rw [List.map_cons, List.flatten_cons, List.length_append, ih, le64_length,
      List.length_cons]
    ring

theorem tablesBytes_length (T : List (List Nat)) :
    ((T.map (fun t => (t.map le64).flatten)).flatten).length
      = 8 * (T.map List.length).sum := by
  induction T with
  | nil => rfl
  | cons t T ih =>
    rw [List.map_cons, List.flatten_cons, List.length_append, ih,
      flatten_le64_length, List.map_cons, List.sum_cons]
    ring

/-- C3 — in `write_all_lines_to_buffered` (sequential path; `Tracking` writer,
`Chunk::write`, and `enumerate_ordered_blocks` are outside `src/` and
modelled from the spec), a region of `Σ_header (chunk_count · 8)` bytes is
reserved right after the metadata by seeking forward: the metadata itself is
untouched, every chunk is placed at or beyond the end of the reserved region,
the offset-table entry at `[layer_index][chunk_index]` equals the byte
position at which that chunk begins in the output (both as the recorded
running position and as the actual location of the chunk's bytes), and after
all chunks are written the tables are written back at the reserved position
as little-endian `u64` values in header order. -/
theorem write_all_lines_offset_tables_correct (meta_bytes : List Nat)
    (counts : List Nat) (chunk_bytes : Nat → Nat → List Nat) :
    (write_all_lines_to_buffered meta_bytes counts chunk_bytes).1.take
        meta_bytes.length = meta_bytes
    ∧ (((write_all_lines_to_buffered meta_bytes counts chunk_bytes).1.drop
          meta_bytes.length).take (counts.sum * 8)
        = (((write_all_lines_to_buffered meta_bytes counts chunk_bytes).2.map
            (fun t => (t.map le64).flatten)).flatten))
    ∧ (write_all_lines_to_buffered meta_bytes counts chunk_bytes).2.length
        = counts.length
    ∧ (∀ l, l < counts.length →
        ((write_all_lines_to_buffered meta_bytes counts chunk_bytes).2.getD l
          []).length = counts.getD l 0)
    ∧ (∀ l i, l < counts.length → i < counts.getD l 0 →
        meta_bytes.length + counts.sum * 8
            ≤ ((write_all_lines_to_buffered meta_bytes counts
                chunk_bytes).2.getD l []).getD i 0
        ∧ ((write_all_lines_to_buffered meta_bytes counts
              chunk_bytes).2.getD l []).getD i 0
            = chunkPosIn chunk_bytes (meta_bytes.length + counts.sum * 8)
                (chunkPairs counts) (l, i)
        ∧ ((write_all_lines_to_buffered meta_bytes counts chunk_bytes).1.drop
              (((write_all_lines_to_buffered meta_bytes counts
                  chunk_bytes).2.getD l []).getD i 0)).take
              (chunk_bytes l i).length
          = chunk_bytes l i) := by
  set start := meta_bytes.length with hstart
  set base := meta_bytes.length + counts.sum * 8 with hbase
  set s0 : WState :=
    { out := meta_bytes, pos := base,
      tables := counts.map (fun c => List.replicate c 0) } with hs0
  set s1 := writeChunksFold chunk_bytes (chunkPairs counts) s0 with hs1
  have hW : write_all_lines_to_buffered meta_bytes counts chunk_bytes
      = (writeAt s1.out start
          ((s1.tables.map (fun t => (t.map le64).flatten)).flatten),
        s1.tables) := rfl
  have hspec := writeChunksFold_spec chunk_bytes (chunkPairs counts) s0
    (by show meta_bytes.length ≤ base; omega)
  obtain ⟨⟨ext, hext⟩, hle, htab, hcontent⟩ := hspec
  have hs1len : s1.out.length = start + ext.length := by
    rw [hext]
    simp [List.length_append]
  -- row lengths of the final tables
  have hts0len : s0.tables.length = counts.length := List.length_map _ _
  have hts0row : ∀ l, l < counts.length →
      (s0.tables.getD l []).length = counts.getD l 0 := by
    intro l hl
    show ((counts.map (fun c => List.replicate c 0)).getD l []).length = _
    rw [List.getD_eq_getElem _ _ (by rw [List.length_map]; exact hl),
      List.getElem_map, List.length_replicate, List.getD_eq_getElem _ _ hl]
  have htlen : s1.tables.length = counts.length := by
    rw [htab, (updTables_length chunk_bytes (chunkPairs counts) s0.pos s0.tables).1,
      hts0len]
  have htrow : ∀ l, l < counts.length →
      (s1.tables.getD l []).length = counts.getD l 0 := by
    intro l hl
    rw [htab, (updTables_length chunk_bytes (chunkPairs counts) s0.pos s0.tables).2 l,
      hts0row l hl]
  -- the serialized tables have exactly the reserved size
  have hmaplen : s1.tables.map List.length = counts := by
    apply List.ext_getElem
    · rw [List.length_map, htlen]
    · intro j h1 h2
      rw [List.getElem_map]
      have hj : j < counts.length := h2
      have := htrow j hj
      rw [List.getD_eq_getElem _ _ (by rw [htlen]; exact hj),
        List.getD_eq_getElem _ _ hj] at this
      exact this
  have htbLen : ((s1.tables.map (fun t => (t.map le64).flatten)).flatten).length
      = counts.sum * 8 := by
    rw [tablesBytes_length, hmaplen]
    ring
  -- shape of the final output
  have hstartle : start ≤ s1.out.length := by omega
  have hWout : (write_all_lines_to_buffered meta_bytes counts chunk_bytes).1
      = meta_bytes ++ ((s1.tables.map (fun t => (t.map le64).flatten)).flatten
          ++ s1.out.drop (start + counts.sum * 8)) := by
    rw [hW]
    show writeAt s1.out start _ = _
    rw [writeAt]
    rw [Nat.sub_eq_zero_of_le hstartle, List.replicate_zero, htbLen]
    have htake : s1.out.take start = meta_bytes := by
      rw [hext]
      exact List.take_left' rfl
    rw [htake]
    simp [List.append_assoc]
  refine ⟨?_, ?_, ?_, ?_, ?_⟩
  · rw [hWout]
    exact List.take_left' rfl
  · rw [hWout, hW]
    show ((meta_bytes ++ _).drop start).take (counts.sum * 8) = _
    rw [List.drop_left' rfl, List.take_append_of_le_length (by omega)]
    rw [List.take_of_length_le (by omega)]
  · rw [hW]; exact htlen
  · intro l hl
    rw [hW]; exact htrow l hl
  · intro l i hl hi
    have hmem : (l, i) ∈ chunkPairs counts := (mem_chunkPairs counts l i).mpr ⟨hl, hi⟩
    have hentry : (s1.tables.getD l []).getD i 0
        = chunkPosIn chunk_bytes base (chunkPairs counts) (l, i) := by
      rw [htab]
      exact updTables_entry chunk_bytes (chunkPairs counts) s0.pos s0.tables l i
        (chunkPairs_nodup counts) hmem (by rw [hts0len]; exact hl)
        (by rw [hts0row l hl]; exact hi)
    have hge : base ≤ chunkPosIn chunk_bytes base (chunkPairs counts) (l, i) :=
      chunkPosIn_ge chunk_bytes (chunkPairs counts) base (l, i)
    obtain ⟨hfits, hbytes⟩ := hcontent (l, i) hmem
    refine ⟨by rw [hW]; show _ ≤ (s1.tables.getD l []).getD i 0; rw [hentry]; exact hge,
      by rw [hW]; exact hentry, ?_⟩
    rw [hW]
    show ((writeAt s1.out start _).drop ((s1.tables.getD l []).getD i 0)).take
        (chunk_bytes l i).length = chunk_bytes l i
    rw [hentry]
    set p := chunkPosIn chunk_bytes base (chunkPairs counts) (l, i) with hp
    have hWout' : writeAt s1.out start
        ((s1.tables.map (fun t => (t.map le64).flatten)).flatten)
        = (meta_bytes ++ (s1.tables.map (fun t => (t.map le64).flatten)).flatten)
            ++ s1.out.drop (start + counts.sum * 8) := by
      have := hWout
      rw [hW] at this
      simpa [List.append_assoc] using this
    rw [hWout']
    have hpref : (meta_bytes ++
        (s1.tables.map (fun t => (t.map le64).flatten)).flatten).length
        = start + counts.sum * 8 := by
      rw [List.length_append, htbLen, hstart]
    rw [List.drop_append_eq_append_drop]
    rw [hpref]
    rw [List.drop_of_length_le (by rw [hpref]; omega), List.nil_append]
    have hdd : (s1.out.drop (start + counts.sum * 8)).drop
        (p - (start + counts.sum * 8)) = s1.out.drop p := by
      rw [List.drop_drop]
      congr 1
      omega
    rw [hdd]
    exact hbytes

/-- Witness for C3 at a concrete write: 3 metadata bytes, two layers with 2
and 1 chunks, and 2-byte chunk payloads; instantiated at the chunk of layer 1
with in-layer index 0. -/
theorem write_all_lines_offset_tables_correct_witness :
    (1 < ([2, 1] : List Nat).length)
    ∧ (0 < ([2, 1] : List Nat).getD 1 0)
    ∧ ([7, 7, 7] : List Nat).length + ([2, 1] : List Nat).sum * 8
        ≤ ((write_all_lines_to_buffered [7, 7, 7] [2, 1]
            (fun l i => [l * 10 + i, 99])).2.getD 1 []).getD 0 0
    ∧ ((write_all_lines_to_buffered [7, 7, 7] [2, 1]
          (fun l i => [l * 10 + i, 99])).1.drop
          (((write_all_lines_to_buffered [7, 7, 7] [2, 1]
              (fun l i => [l * 10 + i, 99])).2.getD 1 []).getD 0 0)).take
          ((fun l i : Nat => [l * 10 + i, 99]) 1 0).length
        = (fun l i : Nat => [l * 10 + i, 99]) 1 0 :=
  ⟨by decide, by decide,
    ((write_all_lines_offset_tables_correct [7, 7, 7] [2, 1]
        (fun l i => [l * 10 + i, 99])).2.2.2.2 1 0 (by decide) (by decide)).1,
    ((write_all_lines_offset_tables_correct [7, 7, 7] [2, 1]
        (fun l i => [l * 10 + i, 99])).2.2.2.2 1 0 (by decide) (by decide)).2.2⟩

end image

namespace huffman

theorem bumpAt_length (n : List Nat) (x : Nat) : (bumpAt n x).length = n.length := by
  rw [bumpAt, List.length_set]

theorem countFold_length (t : List Nat) :
    ∀ n0 : List Nat, (t.foldl bumpAt n0).length = n0.length := by
  induction t with
  | nil => intro n0; rfl
  | cons x t ih =>
    intro n0
    rw [List.foldl_cons, ih (bumpAt n0 x), bumpAt_length]

theorem countFold_getD (t : List Nat) :
    ∀ (n0 : List Nat) (l : Nat), l < n0.length →
      (t.foldl bumpAt n0).getD l 0 = n0.getD l 0 + t.count l := by
  induction t with
  | nil => intro n0 l _; simp
  | cons x t ih =>
    intro n0 l hl
    rw [List.foldl_cons, ih (bumpAt n0 x) l (by rw [bumpAt_length]; exact hl),
      List.count_cons]
    by_cases hx : x = l
    · subst hx
      rw [bumpAt, image.getD_set_self _ _ _ _ hl]
      simp [Nat.add_assoc, Nat.add_comm 1]
    · rw [bumpAt, image.getD_set_ne _ _ _ _ _ hx]
      simp [hx]

theorem sweepList_fst_length (m : List Nat) : ((sweepList m).1).length = m.length := by
  induction m with
  | nil => rfl
  | cons x xs ih => rw [sweepList]; simpa using ih

theorem sweepList_fst_getD (m : List Nat) :
    ∀ i : Nat, ((sweepList m).1).getD i 0 = (sweepList (m.drop (i + 1))).2 := by
  induction m with
  | nil => intro i; rfl
  | cons x xs ih =>
    intro i
    cases i with
    | zero => rw [sweepList]; simp
    | succ i =>
      rw [sweepList]
      show ((sweepList xs).2 :: (sweepList xs).1).getD (i + 1) 0 = _
      rw [List.getD_cons_succ, ih i, List.drop_succ_cons]

theorem sweepList_snd_cons (x : Nat) (xs : List Nat) :
    (sweepList (x :: xs)).2 = ((sweepList xs).2 + x) >>> 1 := by
  rw [sweepList]

theorem wsum_append (u v : List Nat) :
    wsum (u ++ v) = wsum u * 2 ^ v.length + wsum v := by
  induction u with
  | nil => simp [wsum]
  | cons x u ih =>
    rw [List.cons_append, wsum, wsum, ih, List.length_append]
    rw [Nat.pow_add]
    ring

theorem wsum_exact (m : List Nat) (hdvd : 2 ^ m.length ∣ wsum m) :
    2 ^ m.length * (sweepList m).2 = wsum m := by
  induction m with
  | nil => rfl
  | cons x xs ih =>
    rw [List.length_cons, wsum] at *
    have h2 : (2 : Nat) ^ (xs.length + 1) = 2 ^ xs.length * 2 := by
      rw [Nat.pow_succ]
    have hxs : 2 ^ xs.length ∣ wsum xs := by
      have h1 : (2 : Nat) ^ xs.length ∣ x * 2 ^ xs.length := ⟨x, by ring⟩
      have h3 : (2 : Nat) ^ xs.length ∣ x * 2 ^ xs.length + wsum xs :=
        dvd_trans ⟨2, h2⟩ hdvd
      exact (Nat.dvd_add_right h1).mp h3
    have hsum : 2 ^ xs.length * (sweepList xs).2 = wsum xs := ih hxs
    have heven : ∃ c, (sweepList xs).2 + x = 2 * c := by
      rcases hdvd with ⟨c, hc⟩
      refine ⟨c, ?_⟩
      have hmul : 2 ^ xs.length * ((sweepList xs).2 + x)
          = 2 ^ xs.length * (2 * c) := by
        rw [Nat.mul_add, hsum]
        have hco : wsum xs + 2 ^ xs.length * x = x * 2 ^ xs.length + wsum xs := by
          ring
        rw [hco, hc, h2]
        ring
      have hpos : 0 < (2 : Nat) ^ xs.length := Nat.pos_pow_of_pos _ (by omega)
      exact Nat.eq_of_mul_eq_mul_left hpos hmul
    obtain ⟨c, hc⟩ := heven
    rw [sweepList_snd_cons, Nat.shiftRight_succ, Nat.shiftRight_zero, hc]
    rw [Nat.mul_div_cancel_left c (by omega), h2]
    have : 2 ^ xs.length * 2 * c = 2 ^ xs.length * (2 * c) := by ring
    rw [this, ← hc, Nat.mul_add, hsum]
    ring

theorem wsum_replicate_zero (k : Nat) : wsum (List.replicate k 0) = 0 := by
  induction k with
  | zero => rfl
  | succ k ih => rw [List.replicate_succ, wsum, ih]; simp

theorem wsum_set_succ (m : List Nat) :
    ∀ p : Nat, p < m.length →
      wsum (m.set p (m.getD p 0 + 1)) = wsum m + 2 ^ (m.length - 1 - p) := by
  induction m with
  | nil => intro p hp; exact absurd hp (by simp)
  | cons x xs ih =>
    intro p hp
    cases p with
    | zero =>
      rw [List.getD_cons_zero, List.set_cons_zero, wsum, wsum]
      rw [List.length_cons]
      simp [Nat.add_mul]
      ring
    | succ p =>
      rw [List.getD_cons_succ, List.set_cons_succ, wsum, wsum]
      rw [ih p (by simpa using Nat.lt_of_succ_lt_succ hp), List.length_set]
      rw [List.length_cons]
      have : xs.length + 1 - 1 - (p + 1) = xs.length - 1 - p := by omega
      rw [this]
      ring

theorem bump_drop_one (n0 : List Nat) (x : Nat) (hx : x < n0.length) :
    wsum ((bumpAt n0 x).drop 1)
      = wsum (n0.drop 1) + (if 0 < x then 2 ^ (n0.length - 1 - x) else 0) := by
  rw [bumpAt, List.drop_set]
  cases x with
  | zero => rw [if_pos (by omega)]; simp
  | succ x =>
    rw [if_neg (by omega), if_pos (by omega)]
    have hx1 : x + 1 - 1 = x := rfl
    rw [hx1]
    have hgd : n0.getD (x + 1) 0 = (n0.drop 1).getD x 0 := by
      rw [List.getD_eq_getElem _ _ hx, List.getD_eq_getElem _ _
        (by rw [List.length_drop]; omega)]
      rw [List.getElem_drop]
      congr 1
      omega
    rw [hgd, wsum_set_succ (n0.drop 1) x (by rw [List.length_drop]; omega)]
    rw [List.length_drop]
    have : n0.length - 1 - 1 - x = n0.length - 1 - (x + 1) := by omega
    rw [this]

theorem counts_wsum (t : List Nat) :
    ∀ n0 : List Nat, n0.length = 59 → (∀ x ∈ t, x ≤ 58) →
      wsum ((t.foldl bumpAt n0).drop 1) = wsum (n0.drop 1) + kraft t := by
  induction t with
  | nil => intro n0 _ _; simp [kraft]
  | cons x t ih =>
    intro n0 hn0 hb
    rw [List.foldl_cons, ih (bumpAt n0 x) (by rw [bumpAt_length]; exact hn0)
      (fun y hy => hb y (List.mem_cons_of_mem _ hy))]
    rw [bump_drop_one n0 x (by rw [hn0]; have := hb x (List.mem_cons_self _ _); omega)]
    rw [kraft, hn0]
    have h581 : (59 : Nat) - 1 - x = 58 - x := by omega
    rw [h581]
    ring

theorem kraft_eq_wsum (t : List Nat) (hb : ∀ x ∈ t, x ≤ 58) :
    wsum ((t.foldl bumpAt (List.replicate 59 0)).drop 1) = kraft t := by
  rw [counts_wsum t (List.replicate 59 0) (by simp) hb]
  have : (List.replicate 59 (0 : Nat)).drop 1 = List.replicate 58 0 := by
    rw [List.replicate_succ, List.drop_succ_cons, List.drop_zero]
  rw [this, wsum_replicate_zero]
  omega

theorem assignCodes_getD (t : List Nat) :
    ∀ (n : List Nat) (k : Nat), (∀ x ∈ t, x ≤ 58) → n.length = 59 →
      k < t.length → 0 < t.getD k 0 →
      (assignCodes t n).getD k 0
        = t.getD k 0 |||
            ((n.getD (t.getD k 0) 0 + (t.take k).count (t.getD k 0)) <<< 6) := by
  induction t with
  | nil => intro _ k _ _ hk _; exact absurd hk (by simp)
  | cons x t ih =>
    intro n k hb hn hk hpos
    cases k with
    | zero =>
      rw [List.getD_cons_zero] at hpos ⊢
      rw [assignCodes, if_pos hpos]
      simp [List.getD_cons_zero]
    | succ k =>
      rw [List.getD_cons_succ] at hpos ⊢
      have hl58 : t.getD k 0 ≤ 58 := by
        have hkt : k < t.length := by simpa using Nat.lt_of_succ_lt_succ hk
        have : t.getD k 0 ∈ t := by
          rw [List.getD_eq_getElem _ _ hkt]
          exact List.getElem_mem hkt
        exact hb _ (List.mem_cons_of_mem _ this)
      rw [List.take_succ_cons, List.count_cons]
      rw [assignCodes]
      by_cases hx : 0 < x
      · rw [if_pos hx, List.getD_cons_succ]
        rw [ih (bumpAt n x) k (fun y hy => hb y (List.mem_cons_of_mem _ hy))
          (by rw [bumpAt_length]; exact hn)
          (by simpa using Nat.lt_of_succ_lt_succ hk) hpos]
        congr 2
        by_cases hxl : x = t.getD k 0
        · subst hxl
          rw [bumpAt, image.getD_set_self _ _ _ _ (by rw [hn]; omega)]
          simp only [beq_self_eq_true, if_true]
          omega
        · rw [bumpAt, image.getD_set_ne _ _ _ _ _ hxl]
          have hbf : (x == t.getD k 0) = false := by
            simp only [beq_eq_false_iff_ne]
            exact hxl
          rw [hbf]
          simp
      · rw [if_neg hx, List.getD_cons_succ]
        rw [ih n k (fun y hy => hb y (List.mem_cons_of_mem _ hy)) hn
          (by simpa using Nat.lt_of_succ_lt_succ hk) hpos]
        congr 2
        have hx0 : x = 0 := by omega
        subst hx0
        have hbf : ((0 : Nat) == t.getD k 0) = false := by
          simp only [beq_eq_false_iff_ne]
          omega
        rw [hbf]
        simp

theorem take_count_lt (t : List Nat) (k : Nat) (hk : k < t.length) :
    (t.take k).count (t.getD k 0) < t.count (t.getD k 0) := by
  set a := t.getD k 0 with ha
  have hsplit : t = t.take k ++ t.drop k := (List.take_append_drop k t).symm
  have hdrop : t.drop k = a :: t.drop (k + 1) := by
    rw [List.drop_eq_getElem_cons hk]
    congr 1
    rw [ha, List.getD_eq_getElem _ _ hk]
  calc (t.take k).count a < (t.take k).count a + (1 + (t.drop (k + 1)).count a) := by
        omega
    _ = t.count a := by
        conv_rhs => rw [hsplit]
        rw [List.count_append, hdrop, List.count_cons]
        simp
        omega

theorem le_maxCodeLen (t : List Nat) : ∀ x ∈ t, x ≤ maxCodeLen t := by
  induction t with
  | nil => intro x hx; exact absurd hx (List.not_mem_nil x)
  | cons y t ih =>
    intro x hx
    rw [maxCodeLen, List.foldr_cons]
    rcases List.mem_cons.mp hx with heq | hmem
    · subst heq; exact Nat.le_max_left _ _
    · exact Nat.le_trans (ih x hmem) (Nat.le_max_right _ _)

theorem lor_shiftLeft_eq_add : ∀ (k l m : Nat), l < 2 ^ k →
    l ||| (m <<< k) = l + m * 2 ^ k := by
  intro k
  induction k with
  | zero =>
    intro l m hl
    have hl0 : l = 0 := by simpa using hl
    subst hl0
    simp [Nat.shiftLeft_zero]
  | succ k ih =>
    intro l m hl
    have hdec : Nat.bit (decide (l % 2 = 1)) (l >>> 1) = l :=
      Nat.bit_decide_mod_two_eq_one_shiftRight_one l
    have hshift : m <<< (k + 1) = Nat.bit false (m <<< k) := by
      show m <<< (k + 1) = 2 * (m <<< k)
      rw [Nat.shiftLeft_eq, Nat.shiftLeft_eq, Nat.pow_succ]
      ring
    have hl' : l >>> 1 < 2 ^ k := by
      rw [Nat.shiftRight_succ, Nat.shiftRight_zero]
      rw [Nat.pow_succ] at hl
      omega
    calc l ||| (m <<< (k + 1))
        = Nat.bit (decide (l % 2 = 1)) (l >>> 1) ||| Nat.bit false (m <<< k) := by
          rw [hdec, hshift]
      _ = Nat.bit (decide (l % 2 = 1) || false) ((l >>> 1) ||| (m <<< k)) :=
          Nat.lor_bit _ _ _ _
      _ = Nat.bit (decide (l % 2 = 1)) ((l >>> 1) + m * 2 ^ k) := by
          rw [Bool.or_false, ih (l >>> 1) m hl']
      _ = l + m * 2 ^ (k + 1) := by
          rw [Nat.bit_val]
          rw [Nat.bit_val] at hdec
          rw [Nat.shiftRight_succ, Nat.shiftRight_zero] at hdec ⊢
          rw [Nat.pow_succ]
          have hmm : m * (2 ^ k * 2) = 2 * (m * 2 ^ k) := by ring
          omega

theorem length_of_lor_pack (l m : Nat) (hl : l < 64) :
    huffman.length (l ||| (m <<< 6)) = l := by
  rw [huffman.length, lor_shiftLeft_eq_add 6 l m (by norm_num; omega)]
  have h63 : (63 : Nat) = 2 ^ 6 - 1 := by norm_num
  rw [h63, Nat.and_pow_two_sub_one_eq_mod]
  have : (2 : Nat) ^ 6 = 64 := by norm_num
  rw [this] at *
  omega

theorem code_of_lor_pack (l m : Nat) (hl : l < 64) :
    huffman.code (l ||| (m <<< 6)) = m := by
  rw [huffman.code, lor_shiftLeft_eq_add 6 l m (by norm_num; omega)]
  rw [Nat.shiftRight_eq_div_pow]
  have : (2 : Nat) ^ 6 = 64 := by norm_num
  rw [this] at *
  omega

/-- C7 (amended claim) — after `canonical_table` runs on a table of code
lengths that forms a COMPLETE prefix code (`kraft table = 2^58`, i.e.
`Σ 2^(-l) = 1` over the non-zero lengths — true of every table the encoder's
Huffman tree produces; the claim as stated, over arbitrary length tables,
fails: see the counterexample), every nonzero entry packs its original length
in the low 6 bits, and for any two symbols `i, j` with lengths
`0 < li < lj`, `code(i) << (max_len - li) > code(j) << (max_len - lj)`:
shorter codes, left-filled with zeros, are numerically larger. -/
theorem canonical_table_ordering (table : List Nat)
    (_hlen : table.length = ENCODE_SIZE)
    (hbound : ∀ x ∈ table, x ≤ 58)
    (hkraft : kraft table = 2 ^ 58)
    (i j : Nat)
    (hij : table.getD i 0 < table.getD j 0)
    (hpos : 0 < table.getD i 0) :
    length ((canonical_table table).getD i 0) = table.getD i 0
    ∧ length ((canonical_table table).getD j 0) = table.getD j 0
    ∧ code ((canonical_table table).getD i 0)
          <<< (maxCodeLen table - table.getD i 0)
        > code ((canonical_table table).getD j 0)
          <<< (maxCodeLen table - table.getD j 0) := by
  set li := table.getD i 0 with hli
  set lj := table.getD j 0 with hlj
  have hposj : 0 < lj := by omega
  have hiL : i < table.length := by
    by_contra hge
    rw [hli, List.getD_eq_default _ _ (Nat.le_of_not_lt hge)] at hpos
    exact absurd hpos (by omega)
  have hjL : j < table.length := by
    by_contra hge
    rw [hlj, List.getD_eq_default _ _ (Nat.le_of_not_lt hge)] at hposj
    exact absurd hposj (by omega)
  have hmem_i : li ∈ table := by
    rw [hli, List.getD_eq_getElem _ _ hiL]
    exact List.getElem_mem hiL
  have hmem_j : lj ∈ table := by
    rw [hlj, List.getD_eq_getElem _ _ hjL]
    exact List.getElem_mem hjL
  have hli58 : li ≤ 58 := hbound li hmem_i
  have hlj58 : lj ≤ 58 := hbound lj hmem_j
  set N := table.foldl bumpAt (List.replicate 59 0) with hN
  have hNlen : N.length = 59 := by
    rw [hN, countFold_length]
    simp
  have hNget : ∀ l, l < 59 → N.getD l 0 = table.count l := by
    intro l hl
    rw [hN, countFold_getD table _ l (by simp [List.length_replicate]; omega)]
    have hrep : (List.replicate 59 (0 : Nat)).getD l 0 = 0 := by
      rw [List.getD_eq_getElem _ _ (by simp [List.length_replicate]; omega),
        List.getElem_replicate]
    rw [hrep, Nat.zero_add]
  set n' := (sweepList N).1 with hn'
  have hct : canonical_table table = assignCodes table n' := rfl
  have hn'len : n'.length = 59 := by rw [hn', sweepList_fst_length, hNlen]
  have hT1 : wsum (N.drop 1) = 2 ^ 58 := by
    rw [hN, kraft_eq_wsum table hbound, hkraft]
  have key : ∀ l, 1 ≤ l → l ≤ 58 →
      2 ^ (58 - l) * (sweepList (N.drop (l + 1))).2 = wsum (N.drop (l + 1)) := by
    intro l h1 h58
    have hlenl : (N.drop (l + 1)).length = 58 - l := by
      rw [List.length_drop, hNlen]
      omega
    have hdd : (N.drop 1).drop l = N.drop (l + 1) := by
      rw [List.drop_drop]
      congr 1
      omega
    have hsplit : N.drop 1 = (N.drop 1).take l ++ N.drop (l + 1) := by
      conv_lhs => rw [← List.take_append_drop l (N.drop 1)]
      rw [hdd]
    have heq : wsum (N.drop 1)
        = wsum ((N.drop 1).take l) * 2 ^ (58 - l) + wsum (N.drop (l + 1)) := by
      conv_lhs => rw [hsplit]
      rw [wsum_append, hlenl]
    have hd1 : (2 : Nat) ^ (58 - l) ∣ 2 ^ 58 := pow_dvd_pow 2 (by omega)
    have hd2 : (2 : Nat) ^ (58 - l) ∣ wsum ((N.drop 1).take l) * 2 ^ (58 - l) :=
      ⟨wsum ((N.drop 1).take l), by ring⟩
    have hsub : wsum (N.drop (l + 1))
        = 2 ^ 58 - wsum ((N.drop 1).take l) * 2 ^ (58 - l) := by
      omega
    have hdvd : 2 ^ (58 - l) ∣ wsum (N.drop (l + 1)) := by
      rw [hsub]
      exact Nat.dvd_sub' hd1 hd2
    have hex := wsum_exact (N.drop (l + 1)) (by rw [hlenl]; exact hdvd)
    rw [hlenl] at hex
    exact hex
  have hmono : table.count lj * 2 ^ (58 - lj) + wsum (N.drop (lj + 1))
      ≤ wsum (N.drop (li + 1)) := by
    have hdd2 : (N.drop (li + 1)).drop (lj - li - 1) = N.drop lj := by
      rw [List.drop_drop]
      congr 1
      omega
    have hsplit2 : N.drop (li + 1)
        = (N.drop (li + 1)).take (lj - li - 1) ++ N.drop lj := by
      conv_lhs => rw [← List.take_append_drop (lj - li - 1) (N.drop (li + 1))]
      rw [hdd2]
    have hjlt : lj < N.length := by rw [hNlen]; omega
    have hdropLj : N.drop lj = N[lj] :: N.drop (lj + 1) :=
      List.drop_eq_getElem_cons hjlt
    have hNlj : N[lj] = table.count lj := by
      rw [← List.getD_eq_getElem N 0 hjlt, hNget lj (by omega)]
    have hWlj : wsum (N.drop lj)
        = table.count lj * 2 ^ (58 - lj) + wsum (N.drop (lj + 1)) := by
      rw [hdropLj, wsum, hNlj, List.length_drop, hNlen]
      have h59 : (59 : Nat) - (lj + 1) = 58 - lj := by omega
      rw [h59]
    calc table.count lj * 2 ^ (58 - lj) + wsum (N.drop (lj + 1))
        = wsum (N.drop lj) := hWlj.symm
      _ ≤ wsum ((N.drop (li + 1)).take (lj - li - 1)) * 2 ^ (N.drop lj).length
            + wsum (N.drop lj) := Nat.le_add_left _ _
      _ = wsum (N.drop (li + 1)) := by
          conv_rhs => rw [hsplit2]
          rw [wsum_append]
  have hcnt : 1 ≤ table.count lj := List.count_pos_iff.mpr hmem_j
  have hkey_i := key li (by omega) hli58
  have hkey_j := key lj (by omega) hlj58
  have hstep : table.count lj + (sweepList (N.drop (lj + 1))).2
      ≤ 2 ^ (lj - li) * (sweepList (N.drop (li + 1))).2 := by
    have hmul : 2 ^ (58 - lj) * (2 ^ (lj - li) * (sweepList (N.drop (li + 1))).2)
        = 2 ^ (58 - li) * (sweepList (N.drop (li + 1))).2 := by
      rw [← Nat.mul_assoc, ← Nat.pow_add]
      congr 2
      omega
    have hchain : 2 ^ (58 - lj) * (table.count lj + (sweepList (N.drop (lj + 1))).2)
        ≤ 2 ^ (58 - lj) * (2 ^ (lj - li) * (sweepList (N.drop (li + 1))).2) := by
      rw [hmul, hkey_i]
      have hrhs : 2 ^ (58 - lj) * (table.count lj + (sweepList (N.drop (lj + 1))).2)
          = table.count lj * 2 ^ (58 - lj)
            + 2 ^ (58 - lj) * (sweepList (N.drop (lj + 1))).2 := by
        ring
      rw [hrhs, hkey_j]
      exact hmono
    exact Nat.le_of_mul_le_mul_left hchain (Nat.pos_pow_of_pos _ (by omega))
  have hout_i : (canonical_table table).getD i 0
      = li ||| ((n'.getD li 0 + (table.take i).count li) <<< 6) := by
    rw [hct]
    exact assignCodes_getD table n' i hbound hn'len hiL hpos
  have hout_j : (canonical_table table).getD j 0
      = lj ||| ((n'.getD lj 0 + (table.take j).count lj) <<< 6) := by
    rw [hct]
    exact assignCodes_getD table n' j hbound hn'len hjL hposj
  have hfi : n'.getD li 0 = (sweepList (N.drop (li + 1))).2 := by
    rw [hn']
    exact sweepList_fst_getD N li
  have hfj : n'.getD lj 0 = (sweepList (N.drop (lj + 1))).2 := by
    rw [hn']
    exact sweepList_fst_getD N lj
  have hcode_i : code ((canonical_table table).getD i 0)
      = n'.getD li 0 + (table.take i).count li := by
    rw [hout_i]
    exact code_of_lor_pack _ _ (by omega)
  have hcode_j : code ((canonical_table table).getD j 0)
      = n'.getD lj 0 + (table.take j).count lj := by
    rw [hout_j]
    exact code_of_lor_pack _ _ (by omega)
  have hcb_j : (table.take j).count lj < table.count lj := by
    rw [hlj]
    exact take_count_lt table j hjL
  refine ⟨?_, ?_, ?_⟩
  · rw [hout_i]
    exact length_of_lor_pack _ _ (by omega)
  · rw [hout_j]
    exact length_of_lor_pack _ _ (by omega)
  · have hLj : lj ≤ maxCodeLen table := le_maxCodeLen table lj hmem_j
    rw [hcode_i, hcode_j, Nat.shiftLeft_eq, Nat.shiftLeft_eq]
    have hpows : (2 : Nat) ^ (maxCodeLen table - li)
        = 2 ^ (lj - li) * 2 ^ (maxCodeLen table - lj) := by
      rw [← Nat.pow_add]
      congr 1
      omega
    have hcj1 : n'.getD lj 0 + (table.take j).count lj + 1
        ≤ 2 ^ (lj - li) * (n'.getD li 0 + (table.take i).count li) := by
      rw [hfi, hfj]
      have h1 : (sweepList (N.drop (lj + 1))).2 + (table.take j).count lj + 1
          ≤ table.count lj + (sweepList (N.drop (lj + 1))).2 := by
        omega
      have h2 : 2 ^ (lj - li) * (sweepList (N.drop (li + 1))).2
          ≤ 2 ^ (lj - li) * ((sweepList (N.drop (li + 1))).2
              + (table.take i).count li) := by
        exact Nat.mul_le_mul_left _ (Nat.le_add_right _ _)
      omega
    have hppos : 0 < (2 : Nat) ^ (maxCodeLen table - lj) :=
      Nat.pos_pow_of_pos _ (by omega)
    calc (n'.getD lj 0 + (table.take j).count lj) * 2 ^ (maxCodeLen table - lj)
        < (n'.getD lj 0 + (table.take j).count lj + 1)
            * 2 ^ (maxCodeLen table - lj) := by
          exact Nat.mul_lt_mul_of_pos_right (Nat.lt_succ_self _) hppos
      _ ≤ 2 ^ (lj - li) * (n'.getD li 0 + (table.take i).count li)
            * 2 ^ (maxCodeLen table - lj) :=
          Nat.mul_le_mul_right _ hcj1
      _ = (n'.getD li 0 + (table.take i).count li)
            * 2 ^ (maxCodeLen table - li) := by
          rw [hpows]
          ring

theorem kraft_replicate_zero (k : Nat) : kraft (List.replicate k 0) = 0 := by
  induction k with
  | zero => rfl
  | succ k ih => rw [List.replicate_succ, kraft, ih]; simp

theorem sweepList_replicate_zero (k : Nat) :
    sweepList (List.replicate k 0) = (List.replicate k 0, 0) := by
  induction k with
  | zero => rfl
  | succ k ih => rw [List.replicate_succ, sweepList, ih]; simp

theorem foldr_max_replicate_zero (k : Nat) :
    (List.replicate k (0 : Nat)).foldr max 0 = 0 := by
  induction k with
  | zero => rfl
  | succ k ih => rw [List.replicate_succ, List.foldr_cons, ih]; simp

theorem counts_of_counterexample :
    (1 :: 2 :: List.replicate 65535 0 : List Nat).foldl bumpAt
        (List.replicate 59 0)
      = 65535 :: 1 :: 1 :: List.replicate 56 0 := by
  apply List.ext_getElem
  · rw [countFold_length]
    simp [List.length_replicate]
  · intro idx h1 h2
    have hlen : ((1 :: 2 :: List.replicate 65535 0 : List Nat).foldl bumpAt
        (List.replicate 59 0)).length = 59 := by
      rw [countFold_length]
      simp [List.length_replicate]
    have hidx : idx < 59 := by rw [hlen] at h1; exact h1
    rw [← List.getD_eq_getElem _ 0 h1, ← List.getD_eq_getElem _ 0 h2]
    rw [countFold_getD _ _ idx (by simp [List.length_replicate]; omega)]
    have hrep : (List.replicate 59 (0 : Nat)).getD idx 0 = 0 := by
      rw [List.getD_eq_getElem _ _ (by simp [List.length_replicate]; omega),
        List.getElem_replicate]
    rw [hrep, Nat.zero_add]
    rcases idx with _ | _ | _ | m
    · rw [List.count_cons, List.count_cons, List.count_replicate,
        List.getD_cons_zero]
      decide
    · rw [List.count_cons, List.count_cons, List.count_replicate,
        List.getD_cons_succ, List.getD_cons_zero]
      decide
    · rw [List.count_cons, List.count_cons, List.count_replicate,
        List.getD_cons_succ, List.getD_cons_succ, List.getD_cons_zero]
      decide
    · rw [List.count_cons, List.count_cons, List.count_replicate]
      have hb0 : ((0 : Nat) == m + 3) = false := by
        simp only [beq_eq_false_iff_ne]
        omega
      have hb1 : ((1 : Nat) == m + 3) = false := by
        simp only [beq_eq_false_iff_ne]
        omega
      have hb2 : ((2 : Nat) == m + 3) = false := by
        simp only [beq_eq_false_iff_ne]
        omega
      rw [hb0, hb1, hb2]
      have hm : m < 56 := by omega
      show (0 : Nat) + 0 + 0 = (65535 :: 1 :: 1 :: List.replicate 56 0 : List Nat).getD (m + 3) 0
      rw [List.getD_cons_succ, List.getD_cons_succ, List.getD_cons_succ]
      rw [List.getD_eq_getElem _ _ (by simp [List.length_replicate]; omega),
        List.getElem_replicate]

theorem sweep_of_counterexample :
    (sweepList (65535 :: 1 :: 1 :: List.replicate 56 0)).1
      = 0 :: 0 :: 0 :: List.replicate 56 0 := by
  rw [sweepList, sweepList, sweepList, sweepList_replicate_zero]
  simp

theorem canonical_of_counterexample :
    (canonical_table (1 :: 2 :: List.replicate 65535 0)).getD 0 0 = 1
      ∧ (canonical_table (1 :: 2 :: List.replicate 65535 0)).getD 1 0 = 2 := by
  have hc : canonical_table (1 :: 2 :: List.replicate 65535 0)
      = assignCodes (1 :: 2 :: List.replicate 65535 0)
          ((sweepList ((1 :: 2 :: List.replicate 65535 0 : List Nat).foldl bumpAt
            (List.replicate 59 0))).1) := rfl
  rw [hc, counts_of_counterexample, sweep_of_counterexample]
  rw [assignCodes, assignCodes]
  constructor
  · rw [if_pos (by omega)]
    rfl
  · rw [if_pos (by omega), List.getD_cons_succ, if_pos (by omega),
      List.getD_cons_zero]
    rfl

theorem maxCodeLen_of_counterexample :
    maxCodeLen (1 :: 2 :: List.replicate 65535 0) = 2 := by
  rw [maxCodeLen, List.foldr_cons, List.foldr_cons, foldr_max_replicate_zero]
  decide

/-- C7 (counterexample) — the claim quantifies over any table of code
lengths.  On the table assigning length 1 to symbol 0 and length 2 to symbol
1 (an incomplete code: `1/2 + 1/4 < 1`), `canonical_table` gives both symbols
the code 0, so `code(0) << (max_len - 1) = 0` is NOT greater than
`code(1) << (max_len - 2) = 0`, although `l0 = 1 < 2 = l1` and both are
nonzero and the table has the required `ENCODE_SIZE` entries. -/
theorem canonical_table_ordering_counterexample :
    ((1 :: 2 :: List.replicate 65535 0 : List Nat).getD 0 0
        < (1 :: 2 :: List.replicate 65535 0 : List Nat).getD 1 0
      ∧ 0 < (1 :: 2 :: List.replicate 65535 0 : List Nat).getD 0 0
      ∧ (1 :: 2 :: List.replicate 65535 0 : List Nat).length = ENCODE_SIZE)
    ∧ ¬ (code ((canonical_table (1 :: 2 :: List.replicate 65535 0)).getD 0 0)
            <<< (maxCodeLen (1 :: 2 :: List.replicate 65535 0)
                  - (1 :: 2 :: List.replicate 65535 0 : List Nat).getD 0 0)
          > code ((canonical_table (1 :: 2 :: List.replicate 65535 0)).getD 1 0)
            <<< (maxCodeLen (1 :: 2 :: List.replicate 65535 0)
                  - (1 :: 2 :: List.replicate 65535 0 : List Nat).getD 1 0)) := by
  refine ⟨⟨by decide, by decide, ?_⟩, ?_⟩
  · rw [List.length_cons, List.length_cons, List.length_replicate]
    decide
  · rw [canonical_of_counterexample.1, canonical_of_counterexample.2,
      maxCodeLen_of_counterexample]
    decide

theorem kraft_of_witness_table :
    kraft (1 :: 2 :: 2 :: List.replicate 65534 0) = 2 ^ 58 := by
  rw [kraft, kraft, kraft, kraft_replicate_zero]
  norm_num

theorem bound_of_witness_table :
    ∀ x ∈ (1 :: 2 :: 2 :: List.replicate 65534 0 : List Nat), x ≤ 58 := by
  intro x hx
  rcases List.mem_cons.mp hx with rfl | hx
  · omega
  rcases List.mem_cons.mp hx with rfl | hx
  · omega
  rcases List.mem_cons.mp hx with rfl | hx
  · omega
  have := (List.mem_replicate.mp hx).2
  omega

/-- Witness for C7 at a concrete complete code-length table: symbol 0 has
length 1, symbols 1 and 2 have length 2 (`2^-1 + 2^-2 + 2^-2 = 1`),
instantiated at the symbol pair `(0, 1)`. -/
theorem canonical_table_ordering_witness :
    ((1 :: 2 :: 2 :: List.replicate 65534 0 : List Nat).length = ENCODE_SIZE
      ∧ (∀ x ∈ (1 :: 2 :: 2 :: List.replicate 65534 0 : List Nat), x ≤ 58)
      ∧ kraft (1 :: 2 :: 2 :: List.replicate 65534 0) = 2 ^ 58
      ∧ (1 :: 2 :: 2 :: List.replicate 65534 0 : List Nat).getD 0 0
          < (1 :: 2 :: 2 :: List.replicate 65534 0 : List Nat).getD 1 0
      ∧ 0 < (1 :: 2 :: 2 :: List.replicate 65534 0 : List Nat).getD 0 0)
    ∧ (length ((canonical_table (1 :: 2 :: 2 :: List.replicate 65534 0)).getD 0 0)
          = (1 :: 2 :: 2 :: List.replicate 65534 0 : List Nat).getD 0 0
        ∧ length ((canonical_table (1 :: 2 :: 2 :: List.replicate 65534 0)).getD 1 0)
          = (1 :: 2 :: 2 :: List.replicate 65534 0 : List Nat).getD 1 0
        ∧ code ((canonical_table (1 :: 2 :: 2 :: List.replicate 65534 0)).getD 0 0)
              <<< (maxCodeLen (1 :: 2 :: 2 :: List.replicate 65534 0)
                    - (1 :: 2 :: 2 :: List.replicate 65534 0 : List Nat).getD 0 0)
            > code ((canonical_table (1 :: 2 :: 2 :: List.replicate 65534 0)).getD 1 0)
              <<< (maxCodeLen (1 :: 2 :: 2 :: List.replicate 65534 0)
                    - (1 :: 2 :: 2 :: List.replicate 65534 0 : List Nat).getD 1 0)) :=
  ⟨⟨by rw [List.length_cons, List.length_cons, List.length_cons,
        List.length_replicate]; decide,
    bound_of_witness_table, kraft_of_witness_table, by decide, by decide⟩,
    canonical_table_ordering (1 :: 2 :: 2 :: List.replicate 65534 0)
      (by rw [List.length_cons, List.length_cons, List.length_cons,
        List.length_replicate]; decide)
      bound_of_witness_table kraft_of_witness_table 0 1 (by decide) (by decide)⟩

end huffman

namespace huffman

theorem buildScan_zeros (frequencies : List Nat) (k : Nat) :
    ∀ (a : Nat) (st : List Nat × List Nat × Nat × Nat),
      (∀ idx, a ≤ idx → idx < a + k → frequencies.getD idx 0 = 0) →
      ((List.range' a k).foldl (buildScanStep frequencies) st).2 = st.2 := by
  induction k with
  | zero => intro a st _; rfl
  | succ k ih =>
    intro a st hz
    rw [List.range'_succ, List.foldl_cons]
    have hstep : (buildScanStep frequencies st a).2 = st.2 := by
      rw [buildScanStep]
      rw [if_neg (by simpa using hz a (Nat.le_refl a) (by omega))]
    rw [ih (a + 1) (buildScanStep frequencies st a)
      (fun idx h1 h2 => hz idx (by omega) (by omega)), hstep]

theorem scan_of_c8_input :
    (build_encoding_table_scan (3 :: 1 :: 1 :: List.replicate 65534 0)).2
      = (0 :: 1 :: 2 :: List.replicate 65534 0, 3, 2) := by
  rw [build_encoding_table_scan]
  have hsplit : List.range ENCODE_SIZE = List.range' 0 3 ++ List.range' 3 65534 := by
    rw [List.range_eq_range', List.range'_append_1]
    congr 1
  rw [hsplit, List.foldl_append]
  rw [show List.range' 0 3 = [0, 1, 2] from rfl]
  rw [List.foldl_cons, List.foldl_cons, List.foldl_cons, List.foldl_nil]
  have h1 : buildScanStep (3 :: 1 :: 1 :: List.replicate 65534 0)
      (List.replicate ENCODE_SIZE 0, List.replicate ENCODE_SIZE 0, 0, 0) 0
      = ((List.replicate ENCODE_SIZE 0).set 0 0,
          (List.replicate ENCODE_SIZE 0).set 0 0, 1, 0) := rfl
  have h2 : buildScanStep (3 :: 1 :: 1 :: List.replicate 65534 0)
      ((List.replicate ENCODE_SIZE 0).set 0 0,
        (List.replicate ENCODE_SIZE 0).set 0 0, 1, 0) 1
      = (((List.replicate ENCODE_SIZE 0).set 0 0).set 1 1,
          ((List.replicate ENCODE_SIZE 0).set 0 0).set 1 1, 2, 1) := rfl
  have h3 : buildScanStep (3 :: 1 :: 1 :: List.replicate 65534 0)
      (((List.replicate ENCODE_SIZE 0).set 0 0).set 1 1,
        ((List.replicate ENCODE_SIZE 0).set 0 0).set 1 1, 2, 1) 2
      = ((((List.replicate ENCODE_SIZE 0).set 0 0).set 1 1).set 2 2,
          (((List.replicate ENCODE_SIZE 0).set 0 0).set 1 1).set 2 2, 3, 2) := rfl
  rw [h1, h2, h3]
  rw [buildScan_zeros (3 :: 1 :: 1 :: List.replicate 65534 0) 65534 3 _
    (by
      intro idx h1 _
      obtain ⟨m, rfl⟩ := Nat.exists_eq_add_of_le h1
      rw [Nat.add_comm 3 m]
      rw [List.getD_cons_succ, List.getD_cons_succ, List.getD_cons_succ]
      rw [List.getD, List.get?_eq_getElem?]
      exact List.getElem?_getD_replicate_default_eq (d := 0) (r := 65534) (n := m))]
  have hrep : List.replicate ENCODE_SIZE (0 : Nat)
      = 0 :: 0 :: 0 :: List.replicate 65534 0 := by
    rw [show ENCODE_SIZE = 65537 from rfl]
    rw [List.replicate_succ, List.replicate_succ, List.replicate_succ]
  rw [hrep]
  rfl

theorem fheap_of_c8_input :
    (build_encoding_table_scan (3 :: 1 :: 1 :: List.replicate 65534 0)).2.1.set
        (build_encoding_table_scan (3 :: 1 :: 1 :: List.replicate 65534 0)).2.2.1
        ((build_encoding_table_scan (3 :: 1 :: 1 :: List.replicate 65534 0)).2.2.2 + 1)
      = 0 :: 1 :: 2 :: 3 :: List.replicate 65533 0 := by
  rw [scan_of_c8_input]
  show (0 :: 1 :: 2 :: List.replicate 65534 0).set 3 (2 + 1) = _
  rw [show (65534 : Nat) = 65533 + 1 from rfl, List.replicate_succ]
  rfl

/-- C8 — the claim says `build_encoding_table` repeatedly removes from the
heap the two entries with the SMALLEST FREQUENCIES, ties broken by ascending
symbol index.  Evaluating the embedded source fragment on the frequency table
`freq[0] = 3, freq[1] = 1, freq[2] = 1` (pseudo-symbol inserted at index 3
with frequency 1): the two smallest-frequency entries are symbols 1 and 2
(frequency 1 each, lowest indices), but the code's `BinaryHeap<i64>` orders
by raw symbol index — frequencies never enter the comparison — and pops
`(mm, m) = (3, 2)`: the pseudo-symbol and the highest remaining index, so the
first merge combines the wrong pair; moreover the heap was built from all
`ENCODE_SIZE` slots of `f_heap`, so it still holds 65533 spurious zeros. -/
theorem build_encoding_table_pops_by_index_not_frequency :
    build_encoding_table_first_pops (3 :: 1 :: 1 :: List.replicate 65534 0)
      = (3, 2) := by
  have hmax1 : (0 :: 1 :: 2 :: 3 :: List.replicate 65533 0).foldr max 0 = 3 := by
    rw [List.foldr_cons, List.foldr_cons, List.foldr_cons, List.foldr_cons,
      foldr_max_replicate_zero]
    decide
  have herase : (0 :: 1 :: 2 :: 3 :: List.replicate 65533 0).erase 3
      = 0 :: 1 :: 2 :: List.replicate 65533 0 := by
    rw [List.erase_cons_tail (by decide), List.erase_cons_tail (by decide),
      List.erase_cons_tail (by decide), List.erase_cons_head]
  have hmax2 : (0 :: 1 :: 2 :: List.replicate 65533 0).foldr max 0 = 2 := by
    rw [List.foldr_cons, List.foldr_cons, List.foldr_cons,
      foldr_max_replicate_zero]
    decide
  show (((build_encoding_table_scan (3 :: 1 :: 1 :: List.replicate 65534 0)).2.1.set
        (build_encoding_table_scan (3 :: 1 :: 1 :: List.replicate 65534 0)).2.2.1
        ((build_encoding_table_scan (3 :: 1 :: 1 :: List.replicate 65534 0)).2.2.2
          + 1)).foldr max 0,
      (((build_encoding_table_scan (3 :: 1 :: 1 :: List.replicate 65534 0)).2.1.set
        (build_encoding_table_scan (3 :: 1 :: 1 :: List.replicate 65534 0)).2.2.1
        ((build_encoding_table_scan (3 :: 1 :: 1 :: List.replicate 65534 0)).2.2.2
          + 1)).erase
        (((build_encoding_table_scan (3 :: 1 :: 1 :: List.replicate 65534 0)).2.1.set
          (build_encoding_table_scan (3 :: 1 :: 1 :: List.replicate 65534 0)).2.2.1
          ((build_encoding_table_scan (3 :: 1 :: 1 :: List.replicate 65534 0)).2.2.2
            + 1)).foldr max 0)).foldr max 0)
    = (3, 2)
  rw [fheap_of_c8_input, hmax1, herase, hmax2]

end huffman
